import Mathlib

/-!
# RecommenderSystem: a shallow embedding and its verified properties

The C++ class `RecommenderSystem` (files `RecommenderSystem.h`, `RecommenderSystem.cpp`) is
embedded as pure functions over an explicit `State` record.

* `double` is modelled by `Dbl F`: the exact numbers of a linearly ordered field `F`, extended
  by the IEEE special values `+inf`, `-inf` and `NaN`.  Signed zeros are not modelled; every
  zero divisor the program can produce is a `+0` (a sum started at `0`, a count, or a product
  of square roots), which is what `Dbl.div` assumes.
* The methods are embedded twice.  The functions of the section `Engine` compute with exact
  numbers, without rounding or overflow.  The functions of the namespace `Rounded` are the
  same methods with a rounding `rnd` applied to the result of every arithmetic operation;
  with the identity as rounding they are the functions of `Engine`, and with `binary64` and
  `sqrt64` they compute as the machine does in IEEE binary64.
* `std::sqrt` on finite non-negative arguments is a parameter `sqrt : F → F`; the theorems that
  need it assume that it is exact, and are instantiated with `Real.sqrt`.
* `std::unordered_map<string, V>` is an association list; the order of the list is the
  (unspecified) iteration order of the container, and the keys of a container are distinct.
* `std::priority_queue` is the list of its elements with the top first.
* `at()` on a missing key throws `std::out_of_range`; reads past the end of a vector and `top()`
  on an empty queue are undefined behaviour.  Both are reported as an `Err`.
* The parameter `int k` is an integer; container sizes and `numOfAtr` are natural numbers.
* A `for` loop over a container is `List.foldlM` of its body over the entries.
-/

namespace RecommenderSystem

/-! ## Numbers -/

/-- A value of C++ type double: an exact number, or one of the IEEE special values. -/
inductive Dbl (F : Type) where
  | fin : F → Dbl F
  | pinf : Dbl F
  | ninf : Dbl F
  | nan : Dbl F
  deriving DecidableEq, Repr

namespace Dbl

variable {F : Type} [LinearOrderedField F]

/-- IEEE addition on exact numbers and special values. -/
def add : Dbl F → Dbl F → Dbl F
  | fin a, fin b => fin (a + b)
  | nan, _ => nan
  | _, nan => nan
  | pinf, ninf => nan
  | ninf, pinf => nan
  | pinf, _ => pinf
  | _, pinf => pinf
  | ninf, _ => ninf
  | _, ninf => ninf

/-- IEEE negation. -/
def neg : Dbl F → Dbl F
  | fin a => fin (-a)
  | pinf => ninf
  | ninf => pinf
  | nan => nan

/-- IEEE subtraction. -/
def sub (a b : Dbl F) : Dbl F := add a (neg b)

/-- The infinity with the given sign (`true` is negative). -/
def inf (negative : Bool) : Dbl F := if negative then ninf else pinf

/-- IEEE multiplication: an infinity times zero is NaN. -/
def mul : Dbl F → Dbl F → Dbl F
  | fin a, fin b => fin (a * b)
  | nan, _ => nan
  | _, nan => nan
  | pinf, fin b => if b = 0 then nan else inf (decide (b < 0))
  | ninf, fin b => if b = 0 then nan else inf (decide (0 < b))
  | fin a, pinf => if a = 0 then nan else inf (decide (a < 0))
  | fin a, ninf => if a = 0 then nan else inf (decide (0 < a))
  | pinf, pinf => pinf
  | ninf, ninf => pinf
  | pinf, ninf => ninf
  | ninf, pinf => ninf

/-- IEEE division; a zero divisor is taken to be `+0`: `0/0` is NaN and `x/0` is the infinity
with the sign of `x`. -/
def div : Dbl F → Dbl F → Dbl F
  | fin a, fin b =>
    if b = 0 then (if a = 0 then nan else inf (decide (a < 0))) else fin (a / b)
  | nan, _ => nan
  | _, nan => nan
  | fin _, pinf => fin 0
  | fin _, ninf => fin 0
  | pinf, fin b => inf (decide (b < 0))
  | ninf, fin b => inf (decide (0 ≤ b))
  | pinf, pinf => nan
  | pinf, ninf => nan
  | ninf, pinf => nan
  | ninf, ninf => nan

/-- The function `std::sqrt`: NaN on negative arguments, `sqrt` on the others. -/
def sqrt (sqrt : F → F) : Dbl F → Dbl F
  | fin a => if a < 0 then nan else fin (sqrt a)
  | pinf => pinf
  | ninf => nan
  | nan => nan

/-- The comparison `a > b` of two doubles: false as soon as one side is NaN. -/
def gt : Dbl F → Dbl F → Bool
  | fin a, fin b => decide (b < a)
  | nan, _ => false
  | _, nan => false
  | pinf, pinf => false
  | pinf, _ => true
  | ninf, _ => false
  | fin _, pinf => false
  | fin _, ninf => true

/-- The comparison `a == b` of two doubles: false as soon as one side is NaN. -/
def eq : Dbl F → Dbl F → Bool
  | fin a, fin b => decide (a = b)
  | pinf, pinf => true
  | ninf, ninf => true
  | _, _ => false

/-- The comparison `a != b` of two doubles, the negation of `a == b`. -/
def ne (a b : Dbl F) : Bool := !(eq a b)

instance : Add (Dbl F) := ⟨add⟩
instance : Sub (Dbl F) := ⟨sub⟩
instance : Mul (Dbl F) := ⟨mul⟩
instance : Div (Dbl F) := ⟨div⟩
instance : Neg (Dbl F) := ⟨neg⟩

/-- The constant `DBL_MAX` of `<cfloat>` for IEEE binary64: `(2 - 2^-52) * 2^1023`. -/
def DBL_MAX : F := (2 - 1 / 2 ^ 52) * 2 ^ 1023

/-- The constant `DBL_MIN` of `<cfloat>` for IEEE binary64, the least positive normalised
double `2^-1022`. -/
def DBL_MIN : F := 1 / 2 ^ 1022

end Dbl

/-! ## Failures -/

/-- The ways in which a call can fail to return: `at()` on a missing key
(`std::out_of_range`), `stod` on a token that is no number (`std::invalid_argument`), and
undefined behaviour (a read past the end of a vector, `top()` of an empty queue). -/
inductive Err where
  | out_of_range : Err
  | invalid_argument : Err
  | undefined_behaviour : Err
  deriving DecidableEq, Repr

/-! ## Containers -/

/-- The container `std::unordered_map<string, V>`: its entries in iteration order. -/
abbrev UMap (V : Type) := List (String × V)

namespace UMap

variable {V : Type}

/-- The keys of a map, in iteration order. -/
def keys (m : UMap V) : List String := m.map Prod.fst

/-- The member `find`: the value stored under `key`, if any. -/
def find : UMap V → String → Option V
  | [], _ => none
  | (k, v) :: rest, key => if k = key then some v else find rest key

/-- The member `at` (named `atKey` here): the value stored under `key`; throws `std::out_of_range` otherwise. -/
def atKey (m : UMap V) (key : String) : Except Err V :=
  match m.find key with
  | some v => .ok v
  | none => .error Err.out_of_range

/-- The assignment `m[key] = v`: overwrite the entry of `key`, or add one.  The container
does not specify where a new entry comes in the iteration order; it is put last here. -/
def assign : UMap V → String → V → UMap V
  | [], key, v => [(key, v)]
  | (k, w) :: rest, key, v => if k = key then (k, v) :: rest else (k, w) :: assign rest key v

end UMap

/-- The element `v[i]` of a vector; a read past the end is undefined behaviour. -/
def idx {α : Type} (v : List α) (i : Nat) : Except Err α :=
  match v[i]? with
  | some x => .ok x
  | none => .error Err.undefined_behaviour

/-! ## The object state -/

/-- The data members of `RecommenderSystem`. -/
structure State (F : Type) where
  /-- The catalog: feature vector of every movie. -/
  movies : UMap (List (Dbl F))
  /-- The rating matrix: for every user, the score given to every movie (`0` is unrated). -/
  users : UMap (UMap (Dbl F))
  /-- The movie names in the order of the header of the ratings file. -/
  moviesNames : List String
  /-- The number of movies. -/
  moviesNumber : Nat
  /-- The number of attributes. -/
  numOfAtr : Nat

section Engine

variable {F : Type} [LinearOrderedField F]

open Dbl (fin pinf ninf nan)

/-! ## Vector arithmetic -/

/-- The method `_scalarMulti`: the scalar product of the first `numOfAtr` entries. -/
def _scalarMulti (numOfAtr : Nat) (first last : List (Dbl F)) : Except Err (Dbl F) :=
  (List.range numOfAtr).foldlM
    (fun result i => do
      let a ← idx first i
      let b ← idx last i
      pure (result + a * b))
    (fin 0)

/-- The method `_vectorNorm`: the square root of the scalar product of `vec` with itself. -/
def _vectorNorm (sqrt : F → F) (numOfAtr : Nat) (vec : List (Dbl F)) : Except Err (Dbl F) := do
  let s ← _scalarMulti numOfAtr vec vec
  pure (Dbl.sqrt sqrt s)

/-- The method `_getMovieScore`: the cosine of the angle between the two vectors. -/
def _getMovieScore (sqrt : F → F) (numOfAtr : Nat) (prefVec featVec : List (Dbl F)) :
    Except Err (Dbl F) := do
  let s ← _scalarMulti numOfAtr prefVec featVec
  let n1 ← _vectorNorm sqrt numOfAtr prefVec
  let n2 ← _vectorNorm sqrt numOfAtr featVec
  pure (s / (n1 * n2))

/-! ## Content-based recommendation -/

/-- The method `_getNormOfVec`: subtract the mean of the non-zero ratings from every non-zero
rating.  The first loop counts and sums the non-zero ratings, the second one centres them. -/
def _getNormOfVec (userMap : UMap (Dbl F)) : UMap (Dbl F) :=
  let sums : Dbl F × Dbl F := userMap.foldl
    (fun acc movie =>
      if Dbl.ne movie.2 (fin 0) then (acc.1 + fin 1, acc.2 + movie.2) else acc)
    (fin 0, fin 0)
  let numOfRanks := sums.1
  let totalSum := sums.2 / numOfRanks
  userMap.map (fun movie =>
    if Dbl.ne movie.2 (fin 0) then (movie.1, movie.2 - totalSum) else movie)

/-- The inner loop of `_getPrefVec`: add `a * movie.second[i]` to `vec[i]` for every `i` below
`numOfAtr`. -/
def _getPrefVec_add (numOfAtr : Nat) (a : Dbl F) (feat vec : List (Dbl F)) :
    Except Err (List (Dbl F)) :=
  (List.range numOfAtr).foldlM
    (fun vec i => do
      let x ← idx feat i
      let y ← idx vec i
      pure (vec.set i (y + a * x)))
    vec

/-- The method `_getPrefVec`: the sum of the feature vectors of the catalog, each weighted by
the normalised rating; `normMap[key]` of a missing key is the default `0`. -/
def _getPrefVec (st : State F) (normMap : UMap (Dbl F)) : Except Err (List (Dbl F)) :=
  st.movies.foldlM
    (fun vec movie =>
      let a := (normMap.find movie.1).getD (fin 0)
      if Dbl.ne a (fin 0) then _getPrefVec_add st.numOfAtr a movie.2 vec else pure vec)
    (List.replicate st.numOfAtr (fin 0))

/-- The body of the loop of `_getMaxSimilarityMov`, on the pair `(name, bestScore)`. -/
def _getMaxSimilarityMov_step (sqrt : F → F) (st : State F) (userMap : UMap (Dbl F))
    (prefVec : List (Dbl F)) (best : String × Dbl F) (movie : String) :
    Except Err (String × Dbl F) := do
  let r ← userMap.atKey movie
  if Dbl.eq r (fin 0) then
    let featVec ← st.movies.atKey movie
    let score ← _getMovieScore sqrt st.numOfAtr prefVec featVec
    if Dbl.gt score best.2 then pure (movie, score) else pure best
  else pure best

/-- The method `_getMaxSimilarityMov`: the unrated movie of `moviesNames` with the best
score, starting from the empty name and `-DBL_MAX`. -/
def _getMaxSimilarityMov (sqrt : F → F) (st : State F) (userMap : UMap (Dbl F))
    (prefVec : List (Dbl F)) : Except Err String := do
  let best ← st.moviesNames.foldlM (_getMaxSimilarityMov_step sqrt st userMap prefVec)
    ("", fin (-Dbl.DBL_MAX))
  pure best.1

/-- The text returned for an unknown user. -/
def USER_NOT_FOUND : String := "USER NOT FOUND"

/-- The value `BAD_EXIT` returned for an unknown user or movie. -/
def BAD_EXIT : Int := -1

/-- The method `recommendByContent`. -/
def recommendByContent (sqrt : F → F) (st : State F) (userName : String) :
    Except Err String :=
  match st.users.find userName with
  | none => pure USER_NOT_FOUND
  | some _ => do
    let userMap ← st.users.atKey userName
    let normMap := _getNormOfVec userMap
    let prefVec ← _getPrefVec st normMap
    let userMap ← st.users.atKey userName
    _getMaxSimilarityMov sqrt st userMap prefVec

/-! ## Collaborative filtering -/

/-- The container `std::priority_queue` of `_getMaxK`, as the list of its elements with the
top first.  Which of several least elements is the top is left open by the C++ standard; the
list keeps elements that compare equal in the order of their insertion. -/
abbrev Queue (F : Type) := List (String × Dbl F)

/-- The comparator `cmp` of `_getMaxK`. -/
def cmp (first second : String × Dbl F) : Bool := Dbl.gt first.2 second.2

/-- The member `push`: insert `a` in front of the first element that `cmp` puts after it. -/
def Queue.push : Queue F → String × Dbl F → Queue F
  | [], a => [a]
  | e :: es, a => if cmp e a then a :: e :: es else e :: Queue.push es a

/-- The member `top`; undefined behaviour on an empty queue. -/
def Queue.top : Queue F → Except Err (String × Dbl F)
  | [] => .error Err.undefined_behaviour
  | e :: _ => .ok e

/-- The member `pop`. -/
def Queue.pop : Queue F → Queue F
  | [] => []
  | _ :: es => es

/-- The body of the first loop of `_getMaxK`: keep the `k` rated movies closest to
`movieName`. -/
def _getMaxK_step (sqrt : F → F) (st : State F) (movieName userName : String) (k : Int)
    (outMovies : Queue F) (movie : String × List (Dbl F)) : Except Err (Queue F) := do
  let userMap ← st.users.atKey userName
  let r ← userMap.atKey movie.1
  if Dbl.ne r (fin 0) then
    let target ← st.movies.atKey movieName
    let movieRank ← _getMovieScore sqrt st.numOfAtr movie.2 target
    let a := (movie.1, movieRank)
    if (outMovies.length : Int) < k then pure (outMovies.push a)
    else do
      let t ← outMovies.top
      if Dbl.gt movieRank t.2 then pure (outMovies.pop.push a) else pure outMovies
  else pure outMovies

/-- The first loop of `_getMaxK`: the queue after the catalog has been scanned. -/
def _getMaxK_select (sqrt : F → F) (st : State F) (movieName userName : String) (k : Int) :
    Except Err (Queue F) :=
  st.movies.foldlM (_getMaxK_step sqrt st movieName userName k) []

/-- The second loop of `_getMaxK`: empty the queue from the top, accumulating the pair
`(upSum, doSum)`. -/
def _getMaxK_sums (st : State F) (userName : String) (outMovies : Queue F) :
    Except Err (Dbl F × Dbl F) :=
  outMovies.foldlM
    (fun sums t => do
      let userMap ← st.users.atKey userName
      let r ← userMap.atKey t.1
      pure (sums.1 + t.2 * r, sums.2 + t.2))
    (fin 0, fin 0)

/-- The method `_getMaxK`: the average of the ratings of the retained movies, weighted by
their similarity to `movieName`. -/
def _getMaxK (sqrt : F → F) (st : State F) (movieName userName : String) (k : Int) :
    Except Err (Dbl F) := do
  let outMovies ← _getMaxK_select sqrt st movieName userName k
  let sums ← _getMaxK_sums st userName outMovies
  pure (sums.1 / sums.2)

/-- The method `predictMovieScoreForUser`. -/
def predictMovieScoreForUser (sqrt : F → F) (st : State F) (movieName userName : String)
    (k : Int) : Except Err (Dbl F) :=
  match st.users.find userName with
  | none => pure (fin ((BAD_EXIT : Int) : F))
  | some _ =>
    match st.movies.find movieName with
    | none => pure (fin ((BAD_EXIT : Int) : F))
    | some _ => _getMaxK sqrt st movieName userName k

/-- The body of the loop of `recommendByCF`, on the pair `(recMovie, recMovieScore)`. -/
def recommendByCF_step (sqrt : F → F) (st : State F) (userName : String) (k : Int)
    (rec : String × Dbl F) (movie : String) : Except Err (String × Dbl F) := do
  let userMap ← st.users.atKey userName
  let r ← userMap.atKey movie
  if Dbl.eq r (fin 0) then
    let movieScore ← predictMovieScoreForUser sqrt st movie userName k
    if Dbl.gt movieScore rec.2 then pure (movie, movieScore) else pure rec
  else pure rec

/-- The method `recommendByCF`: the unrated movie of `moviesNames` with the best predicted
score, starting from the empty name and `DBL_MIN`. -/
def recommendByCF (sqrt : F → F) (st : State F) (userName : String) (k : Int) :
    Except Err String :=
  match st.users.find userName with
  | none => pure USER_NOT_FOUND
  | some _ => do
    let rec ← st.moviesNames.foldlM (recommendByCF_step sqrt st userName k)
      ("", fin Dbl.DBL_MIN)
    pure rec.1

/-! ## Loading the ratings -/

/-- The white space skipped by the extraction `stream >> token`. -/
def isspace (c : Char) : Bool :=
  c = ' ' || c = '\t' || c = '\n' || c = '\x0b' || c = '\x0c' || c = '\r'

/-- The tokens that repeated extraction reads from the characters of a line; `cur` holds the
characters of the token being read, last one first. -/
def tokensAux : List Char → List Char → List String
  | [], cur => if cur = [] then [] else [String.mk cur.reverse]
  | c :: cs, cur =>
    if isspace c then
      (if cur = [] then tokensAux cs [] else String.mk cur.reverse :: tokensAux cs [])
    else tokensAux cs (c :: cur)

/-- The tokens that repeated extraction `iss >> token` reads from a line. -/
def tokens (line : String) : List String := tokensAux line.data []

/-- The inner loop of `_loadUserRanksFile` for the user `key`: one extraction `iss2 >> val`
per movie of `moviesNames`; `iss2` holds the tokens not yet read, and a failed extraction
leaves `val` as it was.  The function `stod` is `std::stod`, which throws on a token that is
no number. -/
def _loadUserRanksFile_row (stod : String → Option (Dbl F)) (key : String) :
    List String → List String → String → UMap (UMap (Dbl F)) →
    Except Err (UMap (UMap (Dbl F)))
  | [], _, _, users => pure users
  | movie :: rest, iss2, val, users =>
    let val := iss2.head?.getD val
    let row := (users.find key).getD []
    if val = "NA" then
      _loadUserRanksFile_row stod key rest iss2.tail val
        (users.assign key (row.assign movie (fin 0)))
    else
      match stod val with
      | none => throw Err.invalid_argument
      | some d =>
        _loadUserRanksFile_row stod key rest iss2.tail val
          (users.assign key (row.assign movie d))

/-- The method `_loadUserRanksFile` on the lines of the stream: the first line is the header
of movie names, every further line holds a user name and its ratings. -/
def _loadUserRanksFile (stod : String → Option (Dbl F)) (lines : List String)
    (st : State F) : Except Err (State F) := do
  let moviesNames := st.moviesNames ++ tokens (lines.head?.getD "")
  let users ← lines.tail.foldlM
    (fun users line =>
      let iss2 := tokens line
      _loadUserRanksFile_row stod (iss2.head?.getD "") moviesNames iss2.tail "" users)
    st.users
  pure { st with moviesNames := moviesNames, users := users }

/-- A loaded state: what `loadData` leaves in a new object.  The ratings are read by
`_loadUserRanksFile` into an object whose `users` and `moviesNames` are still empty, the
catalog having been filled before by `_loadMoviesAttrFile`. -/
def Loaded (st : State F) : Prop :=
  ∃ (stod : String → Option (Dbl F)) (lines : List String) (st0 : State F),
    st0.users = [] ∧ st0.moviesNames = [] ∧ _loadUserRanksFile stod lines st0 = .ok st

end Engine

/-! ## Auxiliary predicates and example data -/

/-- Every row of a rating matrix has its keys among `names`. -/
def KeysIn {V : Type} (names : List String) (users : UMap (UMap V)) : Prop :=
  ∀ p ∈ users, ∀ q ∈ p.2, q.1 ∈ names

/-- The name kept by the loops of the two recommenders: the empty string, or a movie whose
rating in `userMap` compares equal to `0`. -/
def Unrated {F : Type} [LinearOrderedField F] (userMap : UMap (Dbl F)) (name : String) :
    Prop :=
  name = "" ∨ ∃ r, userMap.find name = some r ∧ Dbl.eq r (Dbl.fin 0) = true

/-- The exact scalar product of the first `n` entries of two vectors of numbers. -/
def dot {F : Type} [LinearOrderedField F] (n : Nat) (a b : List F) : F :=
  ∑ i in Finset.range n, a.getD i 0 * b.getD i 0

/-- The exact cosine that `_getMovieScore` computes on two vectors of numbers. -/
def cosine {F : Type} [LinearOrderedField F] (sqrt : F → F) (n : Nat) (a b : List F) : F :=
  dot n a b / (sqrt (dot n a a) * sqrt (dot n b b))

/-- Whether the catalog entry `movie` is rated in the row `userMap`: the test
`users.at(userName).at(movie.first) != 0` of `_getMaxK`, false when the key is missing. -/
def ratedIn {F : Type} [LinearOrderedField F] (userMap : UMap (Dbl F))
    (movie : String × List (Dbl F)) : Bool :=
  match userMap.find movie.1 with
  | some r => Dbl.ne r (Dbl.fin 0)
  | none => false

/-- The number of rated movies of a row of the rating matrix: the entries whose rating
differs from the sentinel `0`. -/
def numRated {F : Type} [LinearOrderedField F] (userMap : UMap (Dbl F)) : Nat :=
  userMap.countP (fun p => Dbl.ne p.2 (Dbl.fin 0))

/-- The catalog of the scenarios of the specification: movies `A`, `B` and `C` with two
attributes. -/
def exampleCatalog (F : Type) [LinearOrderedField F] : UMap (List (Dbl F)) :=
  [("A", [Dbl.fin 1, Dbl.fin 0]), ("B", [Dbl.fin 0, Dbl.fin 1]),
    ("C", [Dbl.fin 1, Dbl.fin 1])]

/-- The state of the scenarios of the specification on the catalog `movies`: user `u1` rated
`A` only, user `u2` rated `A` and `B`. -/
def exampleStateOn (F : Type) [LinearOrderedField F] (movies : UMap (List (Dbl F))) :
    State F where
  movies := movies
  users := [("u1", [("A", Dbl.fin 5), ("B", Dbl.fin 0), ("C", Dbl.fin 0)]),
    ("u2", [("A", Dbl.fin 4), ("B", Dbl.fin 2), ("C", Dbl.fin 0)])]
  moviesNames := ["A", "B", "C"]
  moviesNumber := 3
  numOfAtr := 2

/-- The state of the scenarios of the specification, the catalog being enumerated in the
order `A`, `B`, `C`. -/
def exampleState (F : Type) [LinearOrderedField F] : State F :=
  exampleStateOn F (exampleCatalog F)

/-- The lines of the ratings file that `exampleState` is loaded from. -/
def exampleLines : List String := ["A B C", "u1 5 NA NA", "u2 4 2 NA"]

/-- The function `std::stod` on the tokens of `exampleLines`. -/
def exampleStod (F : Type) [LinearOrderedField F] (token : String) : Option (Dbl F) :=
  if token = "5" then some (Dbl.fin 5)
  else if token = "4" then some (Dbl.fin 4)
  else if token = "2" then some (Dbl.fin 2)
  else none

/-- A state with a catalog entry that has a negative attribute: movies `A = [2, 0]`,
`B = [-3, 4]` and `C = [1, 0]`, and a user `u` who rated `A` with `1` and `B` with `5`.  It
is what `loadData` builds from the attribute lines `A 2 0`, `B -3 4`, `C 1 0` and the rating
lines `A B C`, `u 1 5 NA`. -/
def negativeState (F : Type) [LinearOrderedField F] : State F where
  movies := [("A", [Dbl.fin 2, Dbl.fin 0]), ("B", [Dbl.fin (-3), Dbl.fin 4]),
    ("C", [Dbl.fin 1, Dbl.fin 0])]
  users := [("u", [("A", Dbl.fin 1), ("B", Dbl.fin 5), ("C", Dbl.fin 0)])]
  moviesNames := ["A", "B", "C"]
  moviesNumber := 3
  numOfAtr := 2

/-- The lines of the ratings file that `negativeState` is loaded from. -/
def negativeLines : List String := ["A B C", "u 1 5 NA"]

/-- The function `std::stod` on the tokens of `negativeLines`. -/
def negativeStod (F : Type) [LinearOrderedField F] (token : String) : Option (Dbl F) :=
  if token = "1" then some (Dbl.fin 1)
  else if token = "5" then some (Dbl.fin 5)
  else none

/-- The comparison `a >= b` of two doubles: false as soon as one side is NaN. -/
def Dbl.ge {F : Type} [LinearOrderedField F] (a b : Dbl F) : Bool := Dbl.gt a b || Dbl.eq a b

/-- The member `push` of the queue on elements whose similarity is a number. -/
def pushF {F : Type} [LinearOrderedField F] : List (String × F) → String × F →
    List (String × F)
  | [], a => [a]
  | e :: es, a => if a.2 < e.2 then a :: e :: es else e :: pushF es a

/-- The body of the first loop of `_getMaxK` on a rated movie `a` whose similarity is a
number. -/
def selectStepF {F : Type} [LinearOrderedField F] (k : Int) (q : List (String × F))
    (a : String × F) : List (String × F) :=
  if (q.length : Int) < k then pushF q a
  else
    match q with
    | [] => []
    | t :: rest => if t.2 < a.2 then pushF rest a else q

/-- A queue whose similarities are the numbers of `q`. -/
def finQueue {F : Type} [LinearOrderedField F] (q : List (String × F)) : Queue F :=
  q.map (fun t => (t.1, Dbl.fin t.2))

/-- The sum of `similarity * rating` over the elements of a queue, `r` being the ratings. -/
def upF {F : Type} [LinearOrderedField F] (r : String → F) (q : List (String × F)) : F :=
  (q.map (fun t => t.2 * r t.1)).sum

/-- The sum of the similarities of the elements of a queue. -/
def doF {F : Type} [LinearOrderedField F] (q : List (String × F)) : F :=
  (q.map (fun t => t.2)).sum

/-- The state of the bounded selection after the rated movies `seen` have been scanned: the
queue `q` is sorted, holds `min k (length seen)` of them, and no dropped movie is more
similar than a retained one. -/
def Selected {F : Type} [LinearOrderedField F] (k : Int) (q seen : List (String × F)) : Prop :=
  q.Pairwise (fun x y => x.2 ≤ y.2) ∧ (q.length : Int) = min k (seen.length : Int) ∧
    ∃ dropped, (q ++ dropped).Perm seen ∧ ∀ d ∈ dropped, ∀ t ∈ q, d.2 ≤ t.2

/-- A state in which a prediction is `-1`: movies `A = [1, 0, 0, 0]`, `B = [-1, 1, 1, 1]` and
`C = [1, 0, 0, 0]`, and a user `u` who rated `A` with `1` and `B` with `3`.  It is what
`loadData` builds from the attribute lines `A 1 0 0 0`, `B -1 1 1 1`, `C 1 0 0 0` and the
rating lines `A B C`, `u 1 3 NA`.  The similarities `1` and `-1/2` to `C`, the sums and the
quotient are all doubles, so that no operation is rounded. -/
def minusOneState (F : Type) [LinearOrderedField F] : State F where
  movies := [("A", [Dbl.fin 1, Dbl.fin 0, Dbl.fin 0, Dbl.fin 0]),
    ("B", [Dbl.fin (-1), Dbl.fin 1, Dbl.fin 1, Dbl.fin 1]),
    ("C", [Dbl.fin 1, Dbl.fin 0, Dbl.fin 0, Dbl.fin 0])]
  users := [("u", [("A", Dbl.fin 1), ("B", Dbl.fin 3), ("C", Dbl.fin 0)])]
  moviesNames := ["A", "B", "C"]
  moviesNumber := 3
  numOfAtr := 4

/-- The lines of the ratings file that `minusOneState` is loaded from. -/
def minusOneLines : List String := ["A B C", "u 1 3 NA"]

/-- The pair `(numOfRanks, totalSum)` that the first loop of `_getNormOfVec` computes. -/
def _getNormOfVec_sums {F : Type} [LinearOrderedField F] (userMap : UMap (Dbl F)) :
    Dbl F × Dbl F :=
  userMap.foldl
    (fun acc movie =>
      if Dbl.ne movie.2 (Dbl.fin 0) then (acc.1 + Dbl.fin 1, acc.2 + movie.2) else acc)
    (Dbl.fin 0, Dbl.fin 0)

/-- The catalog of the scenarios with a user `u0` who has rated no movie.  It is what
`loadData` builds from the attribute lines `A 1 0`, `B 0 1`, `C 1 1` and the rating lines
`A B C`, `u0 NA NA NA`. -/
def unratedState (F : Type) [LinearOrderedField F] : State F where
  movies := exampleCatalog F
  users := [("u0", [("A", Dbl.fin 0), ("B", Dbl.fin 0), ("C", Dbl.fin 0)])]
  moviesNames := ["A", "B", "C"]
  moviesNumber := 3
  numOfAtr := 2

/-- The lines of the ratings file that `unratedState` is loaded from. -/
def unratedLines : List String := ["A B C", "u0 NA NA NA"]

/-- The statement `movies[key].push_back(val)` of `_loadMoviesAttrFile`.  When `key` is new,
an entry is inserted, after which the container enumerates its entries in an order of its
own choice: `order` is that choice. -/
def pushAttr {F : Type} [LinearOrderedField F]
    (order : UMap (List (Dbl F)) → UMap (List (Dbl F))) (movies : UMap (List (Dbl F)))
    (key : String) (val : Int) : UMap (List (Dbl F)) :=
  match movies.find key with
  | some vec => movies.assign key (vec ++ [Dbl.fin (val : F)])
  | none => order (movies.assign key [Dbl.fin (val : F)])

/-- The body of the loop of `_loadMoviesAttrFile` on one line: `readInts` gives the values
that the loop `while (iss >> val)` extracts from the tokens after the name; `movies.begin()`
of an empty container is undefined behaviour. -/
def _loadMoviesAttrFile_line {F : Type} [LinearOrderedField F]
    (order : UMap (List (Dbl F)) → UMap (List (Dbl F))) (readInts : List String → List Int)
    (st : State F) (line : String) : Except Err (State F) :=
  let iss := tokens line
  let key := iss.head?.getD ""
  let movies := (readInts iss.tail).foldl (fun movies val => pushAttr order movies key val)
    st.movies
  match movies with
  | [] => throw Err.undefined_behaviour
  | first :: _ =>
    pure { st with movies := movies, moviesNumber := movies.length,
                   numOfAtr := first.2.length }

/-- The method `_loadMoviesAttrFile` on the lines of the stream. -/
def _loadMoviesAttrFile {F : Type} [LinearOrderedField F]
    (order : UMap (List (Dbl F)) → UMap (List (Dbl F))) (readInts : List String → List Int)
    (lines : List String) (st : State F) : Except Err (State F) :=
  lines.foldlM (_loadMoviesAttrFile_line order readInts) st

/-- The state of a new object. -/
def freshState (F : Type) [LinearOrderedField F] : State F where
  movies := []
  users := []
  moviesNames := []
  moviesNumber := 0
  numOfAtr := 0

/-- The name that `iss >> key` reads from a line. -/
def lineName (line : String) : String := (tokens line).head?.getD ""

/-- The values that `while (iss >> val)` extracts from the token lists of the example
lines. -/
def exampleReadInts (toks : List String) : List Int :=
  if toks = ["1", "0"] then [1, 0]
  else if toks = ["0", "1"] then [0, 1]
  else if toks = ["1", "1"] then [1, 1]
  else if toks = ["1"] then [1]
  else []

/-- A catalog in which every vector has length `c` and the keys are distinct. -/
def Uniform {F : Type} [LinearOrderedField F] (c : Nat) (movies : UMap (List (Dbl F))) :
    Prop :=
  movies.keys.Nodup ∧ ∀ p ∈ movies, p.2.length = c

/-- The state that `_loadMoviesAttrFile` builds from the attribute lines `A 1 0` and `B 1`
when the container enumerates its entries in the order of their insertion. -/
def mixedState (F : Type) [LinearOrderedField F] : State F where
  movies := [("A", [Dbl.fin ((1 : Int) : F), Dbl.fin ((0 : Int) : F)]),
    ("B", [Dbl.fin ((1 : Int) : F)])]
  users := []
  moviesNames := []
  moviesNumber := 2
  numOfAtr := 2

/-- The state that `_loadMoviesAttrFile` builds from the attribute lines `A 1 0` and `B 1`
when the container enumerates a new entry first. -/
def mixedStateReversed (F : Type) [LinearOrderedField F] : State F where
  movies := [("B", [Dbl.fin ((1 : Int) : F)]),
    ("A", [Dbl.fin ((1 : Int) : F), Dbl.fin ((0 : Int) : F)])]
  users := []
  moviesNames := []
  moviesNumber := 2
  numOfAtr := 1

/-! ## Machine arithmetic

The functions above compute with exact numbers.  The namespace `Rounded` embeds the same
methods with a rounding `rnd` applied to the result of every addition, subtraction,
multiplication and division, as the machine does; with the identity as rounding they are the
functions above.  The rounding of IEEE binary64 is `binary64`: round to nearest, ties to even,
with gradual underflow and overflow to an infinity; signed zeros are not modelled. -/

/-- The integer nearest to `q`; of two nearest integers, the even one. -/
def roundEven (q : ℚ) : ℤ :=
  let f := ⌊q⌋
  if q - f < 1 / 2 then f
  else if 1 / 2 < q - f then f + 1
  else if f % 2 = 0 then f else f + 1

/-- The exponent of the unit in the last place of the binary64 numbers around `x`: the
significand has 53 bits, and the least exponent of a normal number is `-1022`. -/
def ulpExp (x : ℚ) : ℤ := max (Int.log 2 |x|) (-1022) - 52

/-- The binary64 number that the exact result `x` of an operation is rounded to. -/
def round64 (x : ℚ) : Dbl ℚ :=
  let y : ℚ := roundEven (x / 2 ^ ulpExp x) * 2 ^ ulpExp x
  if Dbl.DBL_MAX < |y| then Dbl.inf (decide (x < 0)) else Dbl.fin y

/-- The rounding of binary64 on the result of an operation on doubles: an infinity or NaN is
kept, a number is rounded by `round64`. -/
def binary64 : Dbl ℚ → Dbl ℚ
  | Dbl.fin x => round64 x
  | d => d

/-- The function `std::sqrt` of binary64 on a non-negative number: the double nearest to the
square root.  The integer square root is taken with one bit more than the significand; the
square root of a double is never half way between two doubles. -/
def sqrt64 (x : ℚ) : ℚ :=
  if x ≤ 0 then 0
  else
    let e := Int.log 2 x / 2 - 52
    (((Nat.sqrt ⌊4 * x / 4 ^ e⌋₊ + 1) / 2 : ℕ) : ℚ) * 2 ^ e

namespace Rounded

variable {F : Type} [LinearOrderedField F]

open Dbl (fin pinf ninf nan)

/-- The method `_scalarMulti`, every operation rounded. -/
def _scalarMulti (rnd : Dbl F → Dbl F) (numOfAtr : Nat) (first last : List (Dbl F)) :
    Except Err (Dbl F) :=
  (List.range numOfAtr).foldlM
    (fun result i => do
      let a ← idx first i
      let b ← idx last i
      pure (rnd (result + rnd (a * b))))
    (fin 0)

/-- The method `_vectorNorm`; `sqrt` is the rounded square root. -/
def _vectorNorm (rnd : Dbl F → Dbl F) (sqrt : F → F) (numOfAtr : Nat) (vec : List (Dbl F)) :
    Except Err (Dbl F) := do
  let s ← _scalarMulti rnd numOfAtr vec vec
  pure (Dbl.sqrt sqrt s)

/-- The method `_getMovieScore`, every operation rounded. -/
def _getMovieScore (rnd : Dbl F → Dbl F) (sqrt : F → F) (numOfAtr : Nat)
    (prefVec featVec : List (Dbl F)) : Except Err (Dbl F) := do
  let s ← _scalarMulti rnd numOfAtr prefVec featVec
  let n1 ← _vectorNorm rnd sqrt numOfAtr prefVec
  let n2 ← _vectorNorm rnd sqrt numOfAtr featVec
  pure (rnd (s / rnd (n1 * n2)))

/-- The method `_getNormOfVec`, every operation rounded. -/
def _getNormOfVec (rnd : Dbl F → Dbl F) (userMap : UMap (Dbl F)) : UMap (Dbl F) :=
  let sums : Dbl F × Dbl F := userMap.foldl
    (fun acc movie =>
      if Dbl.ne movie.2 (fin 0) then (rnd (acc.1 + fin 1), rnd (acc.2 + movie.2)) else acc)
    (fin 0, fin 0)
  let numOfRanks := sums.1
  let totalSum := rnd (sums.2 / numOfRanks)
  userMap.map (fun movie =>
    if Dbl.ne movie.2 (fin 0) then (movie.1, rnd (movie.2 - totalSum)) else movie)

/-- The inner loop of `_getPrefVec`, every operation rounded. -/
def _getPrefVec_add (rnd : Dbl F → Dbl F) (numOfAtr : Nat) (a : Dbl F)
    (feat vec : List (Dbl F)) : Except Err (List (Dbl F)) :=
  (List.range numOfAtr).foldlM
    (fun vec i => do
      let x ← idx feat i
      let y ← idx vec i
      pure (vec.set i (rnd (y + rnd (a * x)))))
    vec

/-- The method `_getPrefVec`, every operation rounded. -/
def _getPrefVec (rnd : Dbl F → Dbl F) (st : State F) (normMap : UMap (Dbl F)) :
    Except Err (List (Dbl F)) :=
  st.movies.foldlM
    (fun vec movie =>
      let a := (normMap.find movie.1).getD (fin 0)
      if Dbl.ne a (fin 0) then _getPrefVec_add rnd st.numOfAtr a movie.2 vec else pure vec)
    (List.replicate st.numOfAtr (fin 0))

/-- The body of the loop of `_getMaxSimilarityMov`, on the pair `(name, bestScore)`. -/
def _getMaxSimilarityMov_step (rnd : Dbl F → Dbl F) (sqrt : F → F) (st : State F)
    (userMap : UMap (Dbl F)) (prefVec : List (Dbl F)) (best : String × Dbl F)
    (movie : String) : Except Err (String × Dbl F) := do
  let r ← userMap.atKey movie
  if Dbl.eq r (fin 0) then
    let featVec ← st.movies.atKey movie
    let score ← _getMovieScore rnd sqrt st.numOfAtr prefVec featVec
    if Dbl.gt score best.2 then pure (movie, score) else pure best
  else pure best

/-- The method `_getMaxSimilarityMov`. -/
def _getMaxSimilarityMov (rnd : Dbl F → Dbl F) (sqrt : F → F) (st : State F)
    (userMap : UMap (Dbl F)) (prefVec : List (Dbl F)) : Except Err String := do
  let best ← st.moviesNames.foldlM (_getMaxSimilarityMov_step rnd sqrt st userMap prefVec)
    ("", fin (-Dbl.DBL_MAX))
  pure best.1

/-- The method `recommendByContent`. -/
def recommendByContent (rnd : Dbl F → Dbl F) (sqrt : F → F) (st : State F)
    (userName : String) : Except Err String :=
  match st.users.find userName with
  | none => pure USER_NOT_FOUND
  | some _ => do
    let userMap ← st.users.atKey userName
    let normMap := _getNormOfVec rnd userMap
    let prefVec ← _getPrefVec rnd st normMap
    let userMap ← st.users.atKey userName
    _getMaxSimilarityMov rnd sqrt st userMap prefVec

/-- The body of the first loop of `_getMaxK`. -/
def _getMaxK_step (rnd : Dbl F → Dbl F) (sqrt : F → F) (st : State F)
    (movieName userName : String) (k : Int) (outMovies : Queue F)
    (movie : String × List (Dbl F)) : Except Err (Queue F) := do
  let userMap ← st.users.atKey userName
  let r ← userMap.atKey movie.1
  if Dbl.ne r (fin 0) then
    let target ← st.movies.atKey movieName
    let movieRank ← _getMovieScore rnd sqrt st.numOfAtr movie.2 target
    let a := (movie.1, movieRank)
    if (outMovies.length : Int) < k then pure (outMovies.push a)
    else do
      let t ← outMovies.top
      if Dbl.gt movieRank t.2 then pure (outMovies.pop.push a) else pure outMovies
  else pure outMovies

/-- The first loop of `_getMaxK`. -/
def _getMaxK_select (rnd : Dbl F → Dbl F) (sqrt : F → F) (st : State F)
    (movieName userName : String) (k : Int) : Except Err (Queue F) :=
  st.movies.foldlM (_getMaxK_step rnd sqrt st movieName userName k) []

/-- The second loop of `_getMaxK`, every operation rounded. -/
def _getMaxK_sums (rnd : Dbl F → Dbl F) (st : State F) (userName : String)
    (outMovies : Queue F) : Except Err (Dbl F × Dbl F) :=
  outMovies.foldlM
    (fun sums t => do
      let userMap ← st.users.atKey userName
      let r ← userMap.atKey t.1
      pure (rnd (sums.1 + rnd (t.2 * r)), rnd (sums.2 + t.2)))
    (fin 0, fin 0)

/-- The method `_getMaxK`, every operation rounded. -/
def _getMaxK (rnd : Dbl F → Dbl F) (sqrt : F → F) (st : State F)
    (movieName userName : String) (k : Int) : Except Err (Dbl F) := do
  let outMovies ← _getMaxK_select rnd sqrt st movieName userName k
  let sums ← _getMaxK_sums rnd st userName outMovies
  pure (rnd (sums.1 / sums.2))

/-- The method `predictMovieScoreForUser`. -/
def predictMovieScoreForUser (rnd : Dbl F → Dbl F) (sqrt : F → F) (st : State F)
    (movieName userName : String) (k : Int) : Except Err (Dbl F) :=
  match st.users.find userName with
  | none => pure (fin ((BAD_EXIT : Int) : F))
  | some _ =>
    match st.movies.find movieName with
    | none => pure (fin ((BAD_EXIT : Int) : F))
    | some _ => _getMaxK rnd sqrt st movieName userName k

end Rounded

/-- A state on which rounding shows: movies `A = [1, 4]` and `T = [1, 0]`, and a user `u`
who rated `A` with `5`.  It is what `loadData` builds from the attribute lines `A 1 4`,
`T 1 0` and the rating lines `A T`, `u 5 NA`. -/
def roundingState (F : Type) [LinearOrderedField F] : State F where
  movies := [("A", [Dbl.fin 1, Dbl.fin 4]), ("T", [Dbl.fin 1, Dbl.fin 0])]
  users := [("u", [("A", Dbl.fin 5), ("T", Dbl.fin 0)])]
  moviesNames := ["A", "T"]
  moviesNumber := 2
  numOfAtr := 2

/-- The lines of the ratings file that `roundingState` is loaded from. -/
def roundingLines : List String := ["A T", "u 5 NA"]

/-- The function `std::stod` on the tokens of `minusOneLines`. -/
def minusOneStod (F : Type) [LinearOrderedField F] (token : String) : Option (Dbl F) :=
  if token = "1" then some (Dbl.fin 1)
  else if token = "3" then some (Dbl.fin 3)
  else none

/-! # Properties -/

section Facts

variable {F : Type} [LinearOrderedField F]

open Dbl (fin pinf ninf nan)

/-! ## General facts on loops and containers -/

theorem except_bind_ok {ε α β : Type} {x : Except ε α} {f : α → Except ε β} {b : β}
    (h : x >>= f = .ok b) : ∃ a, x = .ok a ∧ f a = .ok b := by
  cases x with
  | error e => cases h
  | ok a => exact ⟨a, rfl, h⟩

theorem foldlM_invariant {α β : Type} (P : β → Prop) (f : β → α → Except Err β)
    (hf : ∀ b a b', P b → f b a = .ok b' → P b') :
    ∀ (l : List α) (b b' : β), P b → l.foldlM f b = .ok b' → P b' := by
  intro l
  induction l with
  | nil =>
    intro b b' hb h
    simp only [List.foldlM_nil] at h
    cases h
    exact hb
  | cons a l ih =>
    intro b b' hb h
    rw [List.foldlM_cons] at h
    obtain ⟨c, hc, hrest⟩ := except_bind_ok h
    exact ih c b' (hf b a c hb hc) hrest

namespace UMap
variable {V : Type}

theorem find_eq_none_iff (m : UMap V) (key : String) : m.find key = none ↔ key ∉ m.keys := by
  induction m with
  | nil => simp [find, keys]
  | cons p rest ih =>
    obtain ⟨k, v⟩ := p
    by_cases hk : k = key
    · simp [find, keys, hk]
    · have hk' : ¬ key = k := fun h => hk h.symm
      simpa [find, keys, hk, hk'] using ih

theorem mem_of_find {m : UMap V} {key : String} {v : V} (h : m.find key = some v) :
    (key, v) ∈ m := by
  induction m with
  | nil => simp [find] at h
  | cons p rest ih =>
    obtain ⟨k, w⟩ := p
    by_cases hk : k = key
    · simp [find, hk] at h
      simp [hk, h]
    · simp [find, hk] at h
      exact List.mem_cons_of_mem _ (ih h)

theorem mem_assign {m : UMap V} {key : String} {v : V} {p : String × V}
    (h : p ∈ m.assign key v) : p ∈ m ∨ p = (key, v) := by
  induction m with
  | nil => simpa [assign] using h
  | cons q rest ih =>
    obtain ⟨k, w⟩ := q
    by_cases hk : k = key
    · simp only [assign, hk, if_true, List.mem_cons] at h
      rcases h with h | h
      · exact Or.inr h
      · exact Or.inl (List.mem_cons_of_mem _ h)
    · simp only [assign, hk, if_false, List.mem_cons] at h
      rcases h with h | h
      · exact Or.inl (h ▸ List.mem_cons_self _ _)
      · rcases ih h with h' | h'
        · exact Or.inl (List.mem_cons_of_mem _ h')
        · exact Or.inr h'

end UMap

end Facts

section Loading

theorem tokensAux_ne_empty (cs cur : List Char) : ∀ t ∈ tokensAux cs cur, t ≠ "" := by
  induction cs generalizing cur with
  | nil =>
    intro t ht
    by_cases hc : cur = []
    · simp [tokensAux, hc] at ht
    · simp only [tokensAux, hc, if_false, List.mem_singleton] at ht
      subst ht
      intro h
      apply hc
      have := congrArg String.data h
      simpa using this
  | cons c cs ih =>
    intro t ht
    by_cases hs : isspace c = true
    · by_cases hc : cur = []
      · simp only [tokensAux, hs, hc, if_true] at ht
        exact ih [] t ht
      · simp only [tokensAux, hs, hc, if_true, if_false, List.mem_cons] at ht
        rcases ht with ht | ht
        · subst ht
          intro h
          apply hc
          have := congrArg String.data h
          simpa using this
        · exact ih [] t ht
    · simp only [tokensAux, hs] at ht
      exact ih (c :: cur) t ht

theorem tokens_ne_empty (line : String) : ∀ t ∈ tokens line, t ≠ "" :=
  tokensAux_ne_empty line.data []

theorem keysIn_assign {V : Type} {names : List String} {users : UMap (UMap V)}
    (h : KeysIn names users) (key movie : String) (hm : movie ∈ names) (d : V) :
    KeysIn names (users.assign key (((users.find key).getD []).assign movie d)) := by
  intro p hp q hq
  rcases UMap.mem_assign hp with hp | hp
  · exact h p hp q hq
  · subst hp
    rcases UMap.mem_assign hq with hq | hq
    · cases hf : users.find key with
      | none => simp [hf] at hq
      | some row =>
        simp only [hf, Option.getD_some] at hq
        exact h (key, row) (UMap.mem_of_find hf) q hq
    · subst hq
      exact hm

variable {F : Type} [LinearOrderedField F]

open Dbl (fin pinf ninf nan)

theorem _loadUserRanksFile_row_keysIn (stod : String → Option (Dbl F)) (key : String)
    (names : List String) :
    ∀ (todo iss2 : List String) (val : String) (users users' : UMap (UMap (Dbl F))),
      (∀ m ∈ todo, m ∈ names) → KeysIn names users →
      _loadUserRanksFile_row stod key todo iss2 val users = .ok users' →
      KeysIn names users' := by
  intro todo
  induction todo with
  | nil =>
    intro iss2 val users users' _ hk h
    simp only [_loadUserRanksFile_row, pure, Except.pure] at h
    cases h
    exact hk
  | cons movie rest ih =>
    intro iss2 val users users' hsub hk h
    have hm : movie ∈ names := hsub movie (List.mem_cons_self _ _)
    have hrest : ∀ m ∈ rest, m ∈ names := fun m hm => hsub m (List.mem_cons_of_mem _ hm)
    simp only [_loadUserRanksFile_row] at h
    split at h
    · exact ih _ _ _ _ hrest (keysIn_assign hk key movie hm _) h
    · split at h
      · cases h
      · exact ih _ _ _ _ hrest (keysIn_assign hk key movie hm _) h

/-- In a loaded state every key of every row of the rating matrix is a name of the header,
and no name of the header is the empty string. -/
theorem Loaded.keys {st : State F} (h : Loaded st) :
    KeysIn st.moviesNames st.users ∧ "" ∉ st.moviesNames := by
  obtain ⟨stod, lines, st0, hu, hn, hl⟩ := h
  simp only [_loadUserRanksFile, hn, hu, List.nil_append] at hl
  obtain ⟨users, hfold, hst⟩ := except_bind_ok hl
  simp only [pure, Except.pure, Except.ok.injEq] at hst
  subst hst
  refine ⟨?_, ?_⟩
  · refine foldlM_invariant (KeysIn (tokens (lines.head?.getD ""))) _ ?_ lines.tail [] users
      ?_ hfold
    · intro b a b' hb hstep
      exact _loadUserRanksFile_row_keysIn stod _ _ _ _ _ b b' (fun m hm => hm) hb hstep
    · intro p hp
      cases hp
  · intro hmem
    exact tokens_ne_empty _ "" hmem rfl

/-- In a loaded state the empty string is no key of a row of the rating matrix. -/
theorem Loaded.find_empty {st : State F} (h : Loaded st) {userName : String}
    {userMap : UMap (Dbl F)} (hu : st.users.find userName = some userMap) :
    userMap.find "" = none := by
  rw [UMap.find_eq_none_iff]
  intro hmem
  obtain ⟨hk, hne⟩ := h.keys
  simp only [UMap.keys, List.mem_map] at hmem
  obtain ⟨q, hq, hq1⟩ := hmem
  apply hne
  rw [← hq1]
  exact hk _ (UMap.mem_of_find hu) q hq

end Loading

section Contracts

variable {F : Type} [LinearOrderedField F]

open Dbl (fin pinf ninf nan)

theorem atKey_of_find {V : Type} {m : UMap V} {key : String} {v : V}
    (h : m.find key = some v) : m.atKey key = .ok v := by
  simp [UMap.atKey, h]

theorem find_of_atKey {V : Type} {m : UMap V} {key : String} {v : V}
    (h : m.atKey key = .ok v) : m.find key = some v := by
  unfold UMap.atKey at h
  split at h
  · rename_i w hw
    cases h
    exact hw
  · cases h

theorem predictMovieScoreForUser_of_mem {F : Type} [LinearOrderedField F] (sqrt : F → F)
    (st : State F) (movieName userName : String) (k : Int)
    (hu : userName ∈ st.users.keys) (hm : movieName ∈ st.movies.keys) :
    predictMovieScoreForUser sqrt st movieName userName k =
      _getMaxK sqrt st movieName userName k := by
  unfold predictMovieScoreForUser
  cases h1 : st.users.find userName with
  | none => exact absurd hu ((UMap.find_eq_none_iff _ _).1 h1)
  | some um =>
    cases h2 : st.movies.find movieName with
    | none => exact absurd hm ((UMap.find_eq_none_iff _ _).1 h2)
    | some v => rfl

/-- C1: for a user name that is no key of the rating matrix, `recommendByContent` returns the
text "USER NOT FOUND", and so does `recommendByCF` for every `k`; the result depends neither
on the catalog nor on the square root, so no score is evaluated. -/
theorem recommend_user_not_found (sqrt : F → F) (st : State F) (userName : String)
    (h : userName ∉ st.users.keys) :
    recommendByContent sqrt st userName = .ok "USER NOT FOUND" ∧
      ∀ k : Int, recommendByCF sqrt st userName k = .ok "USER NOT FOUND" := by
  have hf : st.users.find userName = none := (UMap.find_eq_none_iff _ _).2 h
  refine ⟨?_, fun k => ?_⟩
  · simp [recommendByContent, hf, USER_NOT_FOUND, pure, Except.pure]
  · simp [recommendByCF, hf, USER_NOT_FOUND, pure, Except.pure]

/-- C2: `predictMovieScoreForUser` returns `-1` when the user is no key of the rating matrix
or the movie is no key of the catalog, and is `_getMaxK` on the same arguments otherwise. -/
theorem predictMovieScoreForUser_eq (sqrt : F → F) (st : State F)
    (movieName userName : String) (k : Int) :
    predictMovieScoreForUser sqrt st movieName userName k =
      if userName ∈ st.users.keys ∧ movieName ∈ st.movies.keys then
        _getMaxK sqrt st movieName userName k
      else .ok (fin (-1)) := by
  unfold predictMovieScoreForUser
  cases hu : st.users.find userName with
  | none =>
    have : userName ∉ st.users.keys := (UMap.find_eq_none_iff _ _).1 hu
    simp [this, BAD_EXIT, pure, Except.pure]
  | some um =>
    have h1 : userName ∈ st.users.keys := by
      by_contra hc
      rw [(UMap.find_eq_none_iff _ _).2 hc] at hu
      cases hu
    cases hm : st.movies.find movieName with
    | none =>
      have : movieName ∉ st.movies.keys := (UMap.find_eq_none_iff _ _).1 hm
      simp [this, BAD_EXIT, pure, Except.pure]
    | some v =>
      have h2 : movieName ∈ st.movies.keys := by
        by_contra hc
        rw [(UMap.find_eq_none_iff _ _).2 hc] at hm
        cases hm
      simp [h1, h2]

theorem _getMaxSimilarityMov_step_unrated (sqrt : F → F) (st : State F)
    (userMap : UMap (Dbl F)) (prefVec : List (Dbl F)) (best best' : String × Dbl F)
    (movie : String) (hb : Unrated userMap best.1)
    (h : _getMaxSimilarityMov_step sqrt st userMap prefVec best movie = .ok best') :
    Unrated userMap best'.1 := by
  unfold _getMaxSimilarityMov_step at h
  obtain ⟨r, hr, h⟩ := except_bind_ok h
  by_cases h0 : Dbl.eq r (fin 0) = true
  · simp only [h0, if_true] at h
    obtain ⟨fv, _, h⟩ := except_bind_ok h
    obtain ⟨score, _, h⟩ := except_bind_ok h
    split at h
    · cases h
      exact Or.inr ⟨r, find_of_atKey hr, h0⟩
    · cases h
      exact hb
  · simp only [h0] at h
    cases h
    exact hb

theorem recommendByCF_step_unrated (sqrt : F → F) (st : State F) (userName : String)
    (k : Int) (userMap : UMap (Dbl F)) (hu : st.users.find userName = some userMap)
    (best best' : String × Dbl F) (movie : String) (hb : Unrated userMap best.1)
    (h : recommendByCF_step sqrt st userName k best movie = .ok best') :
    Unrated userMap best'.1 := by
  unfold recommendByCF_step at h
  rw [atKey_of_find hu] at h
  obtain ⟨um, hum, h⟩ := except_bind_ok h
  cases hum
  obtain ⟨r, hr, h⟩ := except_bind_ok h
  by_cases h0 : Dbl.eq r (fin 0) = true
  · simp only [h0, if_true] at h
    obtain ⟨score, _, h⟩ := except_bind_ok h
    split at h
    · cases h
      exact Or.inr ⟨r, find_of_atKey hr, h0⟩
    · cases h
      exact hb
  · simp only [h0] at h
    cases h
    exact hb

theorem Unrated.not_rated {st : State F} (hl : Loaded st) {userName : String}
    {userMap : UMap (Dbl F)} (hu : st.users.find userName = some userMap) {name : String}
    (h : Unrated userMap name) :
    ∀ r, userMap.find name = some r → Dbl.ne r (fin 0) = false := by
  intro r hr
  rcases h with h | ⟨r', hr', h0⟩
  · subst h
    rw [hl.find_empty hu] at hr
    cases hr
  · rw [hr] at hr'
    cases hr'
    simp [Dbl.ne, h0]

/-- C3: in a loaded state, a name returned by `recommendByContent` for an existing user is
never a movie whose rating in the row of that user differs from the sentinel `0`. -/
theorem recommendByContent_never_rated (sqrt : F → F) (st : State F) (hl : Loaded st)
    (userName name : String) (userMap : UMap (Dbl F))
    (hu : st.users.find userName = some userMap)
    (hret : recommendByContent sqrt st userName = .ok name) :
    ∀ r, userMap.find name = some r → Dbl.ne r (fin 0) = false := by
  apply Unrated.not_rated hl hu
  simp only [recommendByContent, hu, atKey_of_find hu] at hret
  obtain ⟨um, hum, hret⟩ := except_bind_ok hret
  cases hum
  obtain ⟨prefVec, _, hret⟩ := except_bind_ok hret
  obtain ⟨um, hum, hret⟩ := except_bind_ok hret
  cases hum
  unfold _getMaxSimilarityMov at hret
  obtain ⟨best, hfold, hret⟩ := except_bind_ok hret
  cases hret
  exact foldlM_invariant (fun b => Unrated userMap b.1) _
    (fun b a b' hb hstep => _getMaxSimilarityMov_step_unrated sqrt st userMap prefVec b b' a
      hb hstep)
    st.moviesNames _ best (Or.inl rfl) hfold

/-- C4: in a loaded state, a name returned by `recommendByCF` for an existing user and any
`k` is never a movie whose rating in the row of that user differs from the sentinel `0`. -/
theorem recommendByCF_never_rated (sqrt : F → F) (st : State F) (hl : Loaded st)
    (userName name : String) (k : Int) (userMap : UMap (Dbl F))
    (hu : st.users.find userName = some userMap)
    (hret : recommendByCF sqrt st userName k = .ok name) :
    ∀ r, userMap.find name = some r → Dbl.ne r (fin 0) = false := by
  apply Unrated.not_rated hl hu
  simp only [recommendByCF, hu] at hret
  obtain ⟨best, hfold, hret⟩ := except_bind_ok hret
  cases hret
  exact foldlM_invariant (fun b => Unrated userMap b.1) _
    (fun b a b' hb hstep => recommendByCF_step_unrated sqrt st userName k userMap hu b b' a
      hb hstep)
    st.moviesNames _ best (Or.inl rfl) hfold

end Contracts

section VectorFacts

variable {F : Type} [LinearOrderedField F]

open Dbl (fin pinf ninf nan)

theorem fin_add_fin (a b : F) : (fin a + fin b : Dbl F) = fin (a + b) := rfl

theorem fin_mul_fin (a b : F) : (fin a * fin b : Dbl F) = fin (a * b) := rfl

theorem fin_div_fin (a b : F) (hb : b ≠ 0) : (fin a / fin b : Dbl F) = fin (a / b) := by
  show Dbl.div (fin a) (fin b) = fin (a / b)
  simp [Dbl.div, hb]

theorem gt_fin_fin (a b : F) : Dbl.gt (fin a) (fin b) = decide (b < a) := rfl

theorem idx_map_fin (a : List F) (i : Nat) (h : i < a.length) :
    idx (a.map fin) i = .ok (fin (a.getD i 0)) := by
  simp [idx, List.getElem?_map, List.getElem?_eq_getElem h, List.getD_eq_getElem _ _ h]

theorem dot_comm (n : Nat) (a b : List F) : dot n a b = dot n b a := by
  unfold dot
  exact Finset.sum_congr rfl (fun i _ => mul_comm _ _)

theorem dot_self_nonneg (n : Nat) (a : List F) : 0 ≤ dot n a a := by
  unfold dot
  exact Finset.sum_nonneg (fun i _ => mul_self_nonneg _)

theorem dot_self_pos (a : List F) (h : ∃ x ∈ a, x ≠ 0) : 0 < dot a.length a a := by
  obtain ⟨x, hx, hx0⟩ := h
  obtain ⟨i, hi, hget⟩ := List.getElem_of_mem hx
  unfold dot
  apply Finset.sum_pos'
  · exact fun i _ => mul_self_nonneg _
  · refine ⟨i, Finset.mem_range.2 hi, ?_⟩
    rw [List.getD_eq_getElem _ _ hi, hget]
    exact mul_self_pos.2 hx0

theorem _scalarMulti_fin (n : Nat) (a b : List F) (ha : n ≤ a.length) (hb : n ≤ b.length) :
    _scalarMulti n (a.map fin) (b.map fin) = .ok (fin (dot n a b)) := by
  unfold _scalarMulti
  induction n with
  | zero => simp [dot, pure, Except.pure]
  | succ n ih =>
    rw [List.range_succ, List.foldlM_append, ih (by omega) (by omega)]
    simp only [List.foldlM_cons, List.foldlM_nil, idx_map_fin a n (by omega),
      idx_map_fin b n (by omega), bind, Except.bind, pure, Except.pure, fin_mul_fin,
      fin_add_fin]
    simp [dot, Finset.sum_range_succ]

theorem _vectorNorm_fin (sqrt : F → F) (n : Nat) (a : List F) (ha : n ≤ a.length) :
    _vectorNorm sqrt n (a.map fin) = .ok (fin (sqrt (dot n a a))) := by
  unfold _vectorNorm
  rw [_scalarMulti_fin n a a ha ha]
  simp [bind, Except.bind, pure, Except.pure, Dbl.sqrt, not_lt.2 (dot_self_nonneg n a)]

theorem _getMovieScore_fin (sqrt : F → F) (n : Nat) (a b : List F) (ha : n ≤ a.length)
    (hb : n ≤ b.length) :
    _getMovieScore sqrt n (a.map fin) (b.map fin) =
      .ok (fin (dot n a b) / fin (sqrt (dot n a a) * sqrt (dot n b b))) := by
  unfold _getMovieScore
  rw [_scalarMulti_fin n a b ha hb, _vectorNorm_fin sqrt n a ha, _vectorNorm_fin sqrt n b hb]
  rfl

theorem _getMovieScore_cosine (sqrt : F → F) (n : Nat) (a b : List F) (ha : n ≤ a.length)
    (hb : n ≤ b.length) (h : sqrt (dot n a a) * sqrt (dot n b b) ≠ 0) :
    _getMovieScore sqrt n (a.map fin) (b.map fin) = .ok (fin (cosine sqrt n a b)) := by
  rw [_getMovieScore_fin sqrt n a b ha hb, fin_div_fin _ _ h]
  rfl

/-- C7: over exact arithmetic, with a square root that is exact on the squared norm, the
cosine similarity of a vector of length `numOfAtr` that is not all-zero with itself is `1`. -/
theorem _getMovieScore_self (sqrt : F → F) (numOfAtr : Nat) (v : List F)
    (hlen : v.length = numOfAtr) (hv : ∃ x ∈ v, x ≠ 0)
    (hsqrt : ∀ x : F, 0 ≤ x → sqrt x * sqrt x = x) :
    _getMovieScore sqrt numOfAtr (v.map fin) (v.map fin) = .ok (fin 1) := by
  subst hlen
  have hpos : 0 < dot v.length v v := dot_self_pos v hv
  have hs : sqrt (dot v.length v v) * sqrt (dot v.length v v) = dot v.length v v :=
    hsqrt _ hpos.le
  rw [_getMovieScore_cosine sqrt _ v v le_rfl le_rfl (by rw [hs]; exact hpos.ne')]
  simp [cosine, hs, hpos.ne']

/-- C8: the cosine similarity is symmetric: for two vectors of length `numOfAtr` that are not
all-zero, and a square root that does not vanish on positive numbers, `_getMovieScore a b`
and `_getMovieScore b a` return the same number. -/
theorem _getMovieScore_symm (sqrt : F → F) (numOfAtr : Nat) (a b : List F)
    (ha : a.length = numOfAtr) (hb : b.length = numOfAtr)
    (ha0 : ∃ x ∈ a, x ≠ 0) (hb0 : ∃ x ∈ b, x ≠ 0)
    (hsqrt : ∀ x : F, 0 < x → sqrt x ≠ 0) :
    ∃ c : F, _getMovieScore sqrt numOfAtr (a.map fin) (b.map fin) = .ok (fin c) ∧
      _getMovieScore sqrt numOfAtr (b.map fin) (a.map fin) = .ok (fin c) := by
  have hpa : 0 < dot numOfAtr a a := ha ▸ dot_self_pos a ha0
  have hpb : 0 < dot numOfAtr b b := hb ▸ dot_self_pos b hb0
  have hden : sqrt (dot numOfAtr a a) * sqrt (dot numOfAtr b b) ≠ 0 :=
    mul_ne_zero (hsqrt _ hpa) (hsqrt _ hpb)
  have hden' : sqrt (dot numOfAtr b b) * sqrt (dot numOfAtr a a) ≠ 0 :=
    mul_ne_zero (hsqrt _ hpb) (hsqrt _ hpa)
  refine ⟨cosine sqrt numOfAtr a b, ?_, ?_⟩
  · exact _getMovieScore_cosine sqrt _ a b ha.ge hb.ge hden
  · rw [_getMovieScore_cosine sqrt _ b a hb.ge ha.ge hden']
    simp [cosine, dot_comm numOfAtr b a, mul_comm]

/-- Witness of C7 on the vector `[3, 4]` over the real numbers. -/
theorem _getMovieScore_self_witness :
    ([3, 4] : List ℝ).length = 2 ∧ (∃ x ∈ ([3, 4] : List ℝ), x ≠ 0) ∧
      _getMovieScore Real.sqrt 2 (([3, 4] : List ℝ).map fin) (([3, 4] : List ℝ).map fin) =
        .ok (fin 1) :=
  ⟨rfl, ⟨3, by simp, by norm_num⟩,
    _getMovieScore_self Real.sqrt 2 [3, 4] rfl ⟨3, by simp, by norm_num⟩
      (fun _ hx => Real.mul_self_sqrt hx)⟩

/-- Witness of C8 on the vectors `[1, 0]` and `[1, 1]` over the real numbers. -/
theorem _getMovieScore_symm_witness :
    ∃ c : ℝ, _getMovieScore Real.sqrt 2 (([1, 0] : List ℝ).map fin)
        (([1, 1] : List ℝ).map fin) = .ok (fin c) ∧
      _getMovieScore Real.sqrt 2 (([1, 1] : List ℝ).map fin) (([1, 0] : List ℝ).map fin) =
        .ok (fin c) :=
  _getMovieScore_symm Real.sqrt 2 [1, 0] [1, 1] rfl rfl ⟨1, by simp, by norm_num⟩
    ⟨1, by simp, by norm_num⟩ (fun _ hx => (Real.sqrt_pos.2 hx).ne')

end VectorFacts

section UsingAll

variable {F : Type} [LinearOrderedField F]

open Dbl (fin pinf ninf nan)

theorem Queue.length_push (q : Queue F) (a : String × Dbl F) :
    (q.push a).length = q.length + 1 := by
  induction q with
  | nil => rfl
  | cons e es ih =>
    by_cases h : cmp e a = true
    · simp [Queue.push, h]
    · simp [Queue.push, h, ih]

/-- With room in the queue for a rated movie, the body of the first loop of `_getMaxK` does
not depend on the bound. -/
theorem _getMaxK_step_room (sqrt : F → F) (st : State F) (movieName userName : String)
    (userMap : UMap (Dbl F)) (hu : st.users.find userName = some userMap) (k1 k2 : Int)
    (q : Queue F) (e : String × List (Dbl F))
    (h1 : ratedIn userMap e = true → (q.length : Int) < k1)
    (h2 : ratedIn userMap e = true → (q.length : Int) < k2) :
    _getMaxK_step sqrt st movieName userName k1 q e =
      _getMaxK_step sqrt st movieName userName k2 q e := by
  unfold _getMaxK_step
  simp only [atKey_of_find hu, bind, Except.bind]
  cases hf : userMap.find e.1 with
  | none => simp [UMap.atKey, hf]
  | some r =>
    simp only [UMap.atKey, hf]
    by_cases hr : Dbl.ne r (fin 0) = true
    · have hrated : ratedIn userMap e = true := by simp [ratedIn, hf, hr]
      simp only [hr, if_true, h1 hrated, h2 hrated]
    · simp only [hr, Bool.false_eq_true, if_false]

/-- The body of the first loop of `_getMaxK` adds one element to a queue with room when the
movie is rated, and leaves the queue alone when it is not. -/
theorem _getMaxK_step_length (sqrt : F → F) (st : State F) (movieName userName : String)
    (userMap : UMap (Dbl F)) (hu : st.users.find userName = some userMap) (k : Int)
    (q q' : Queue F) (e : String × List (Dbl F))
    (hroom : ratedIn userMap e = true → (q.length : Int) < k)
    (h : _getMaxK_step sqrt st movieName userName k q e = .ok q') :
    q'.length = q.length + (if ratedIn userMap e = true then 1 else 0) := by
  unfold _getMaxK_step at h
  rw [atKey_of_find hu] at h
  obtain ⟨um, hum, h⟩ := except_bind_ok h
  cases hum
  obtain ⟨r, hr, h⟩ := except_bind_ok h
  have hf := find_of_atKey hr
  by_cases hne : Dbl.ne r (fin 0) = true
  · have hrated : ratedIn userMap e = true := by simp [ratedIn, hf, hne]
    simp only [hne, if_true] at h
    obtain ⟨target, _, h⟩ := except_bind_ok h
    obtain ⟨movieRank, _, h⟩ := except_bind_ok h
    simp only [hroom hrated, if_true, pure, Except.pure, Except.ok.injEq] at h
    subst h
    simp [Queue.length_push, hrated]
  · have hrated : ¬ ratedIn userMap e = true := by simp [ratedIn, hf, hne]
    simp only [hne, Bool.false_eq_true, if_false, pure, Except.pure, Except.ok.injEq] at h
    subst h
    simp [hrated]

/-- While the queue has room for every rated movie still to come, the first loop of
`_getMaxK` pushes each of them: two bounds with that much room give the same run. -/
theorem _getMaxK_loop_room (sqrt : F → F) (st : State F) (movieName userName : String)
    (userMap : UMap (Dbl F)) (hu : st.users.find userName = some userMap) (k1 k2 : Int) :
    ∀ (l : List (String × List (Dbl F))) (q : Queue F),
      ((q.length + l.countP (ratedIn userMap) : Nat) : Int) ≤ k1 →
      ((q.length + l.countP (ratedIn userMap) : Nat) : Int) ≤ k2 →
      l.foldlM (_getMaxK_step sqrt st movieName userName k1) q =
        l.foldlM (_getMaxK_step sqrt st movieName userName k2) q := by
  intro l
  induction l with
  | nil => intro q _ _; rfl
  | cons e l ih =>
    intro q h1 h2
    have hc : (e :: l).countP (ratedIn userMap) =
        l.countP (ratedIn userMap) + (if ratedIn userMap e = true then 1 else 0) :=
      List.countP_cons _ _ _
    rw [hc] at h1 h2
    have hr1 : ratedIn userMap e = true → (q.length : Int) < k1 := by
      intro hr
      simp only [hr, if_true] at h1
      push_cast at h1
      omega
    have hr2 : ratedIn userMap e = true → (q.length : Int) < k2 := by
      intro hr
      simp only [hr, if_true] at h2
      push_cast at h2
      omega
    rw [List.foldlM_cons, List.foldlM_cons,
      _getMaxK_step_room sqrt st movieName userName userMap hu k1 k2 q e hr1 hr2]
    cases hstep : _getMaxK_step sqrt st movieName userName k2 q e with
    | error err => rfl
    | ok q' =>
      have hlen := _getMaxK_step_length sqrt st movieName userName userMap hu k2 q q' e hr2
        hstep
      simp only [bind, Except.bind]
      apply ih
      · rw [hlen]
        have : q.length + (if ratedIn userMap e = true then 1 else 0) +
            l.countP (ratedIn userMap) = q.length + (l.countP (ratedIn userMap) +
            (if ratedIn userMap e = true then 1 else 0)) := by omega
        rw [this]
        exact h1
      · rw [hlen]
        have : q.length + (if ratedIn userMap e = true then 1 else 0) +
            l.countP (ratedIn userMap) = q.length + (l.countP (ratedIn userMap) +
            (if ratedIn userMap e = true then 1 else 0)) := by omega
        rw [this]
        exact h2

/-- A catalog with distinct keys has at most as many movies rated in a row as the row has
rated movies. -/
theorem countP_ratedIn_le (movies : UMap (List (Dbl F))) (hnd : movies.keys.Nodup)
    (userMap : UMap (Dbl F)) : movies.countP (ratedIn userMap) ≤ numRated userMap := by
  have hsub : ((movies.filter (ratedIn userMap)).map Prod.fst) ⊆
      ((userMap.filter (fun p => Dbl.ne p.2 (fin 0))).map Prod.fst) := by
    intro key hkey
    obtain ⟨e, he, hek⟩ := List.mem_map.1 hkey
    have hr : ratedIn userMap e = true := (List.mem_filter.1 he).2
    unfold ratedIn at hr
    split at hr
    · rename_i r hfind
      rw [hek] at hfind
      exact List.mem_map.2 ⟨(key, r), List.mem_filter.2 ⟨UMap.mem_of_find hfind, hr⟩, rfl⟩
    · cases hr
  have hnd' : ((movies.filter (ratedIn userMap)).map Prod.fst).Nodup :=
    List.Nodup.sublist (List.Sublist.map _ (List.filter_sublist _)) hnd
  have := (List.Nodup.subperm hnd' hsub).length_le
  simpa [List.countP_eq_length_filter, numRated] using this

/-- With room for every rated movie of the catalog, the first loop of `_getMaxK` retains as
many movies as the catalog has rated ones. -/
theorem _getMaxK_loop_length (sqrt : F → F) (st : State F) (movieName userName : String)
    (userMap : UMap (Dbl F)) (hu : st.users.find userName = some userMap) (k : Int) :
    ∀ (l : List (String × List (Dbl F))) (q q' : Queue F),
      ((q.length + l.countP (ratedIn userMap) : Nat) : Int) ≤ k →
      l.foldlM (_getMaxK_step sqrt st movieName userName k) q = .ok q' →
      q'.length = q.length + l.countP (ratedIn userMap) := by
  intro l
  induction l with
  | nil =>
    intro q q' _ h
    cases h
    simp
  | cons e l ih =>
    intro q q' hk h
    have hc : (e :: l).countP (ratedIn userMap) =
        l.countP (ratedIn userMap) + (if ratedIn userMap e = true then 1 else 0) :=
      List.countP_cons _ _ _
    rw [hc] at hk ⊢
    have hr : ratedIn userMap e = true → (q.length : Int) < k := by
      intro hr
      simp only [hr, if_true] at hk
      push_cast at hk
      omega
    rw [List.foldlM_cons] at h
    obtain ⟨q1, hstep, h⟩ := except_bind_ok h
    have hlen := _getMaxK_step_length sqrt st movieName userName userMap hu k q q1 e hr hstep
    have hk' : ((q1.length + l.countP (ratedIn userMap) : Nat) : Int) ≤ k := by
      rw [hlen]
      have : q.length + (if ratedIn userMap e = true then 1 else 0) +
          l.countP (ratedIn userMap) = q.length + (l.countP (ratedIn userMap) +
          (if ratedIn userMap e = true then 1 else 0)) := by omega
      rw [this]
      exact hk
    rw [ih q1 q' hk' h, hlen]
    omega

/-- C5: the keys of the catalog being distinct, for an existing user with `n` rated movies
and every `k ≥ n` (in particular for `n ≥ 1` and an existing movie), the first loop of
`_getMaxK` retains the same movies for `k` as for `n`, namely every movie of the catalog that
the user has rated, and `predictMovieScoreForUser` gives the same result for `k` as for
`n`. -/
theorem predictMovieScoreForUser_all_rated (sqrt : F → F) (st : State F)
    (hnd : st.movies.keys.Nodup) (movieName userName : String) (userMap : UMap (Dbl F))
    (hu : st.users.find userName = some userMap)
    (n : Nat) (hn : n = numRated userMap) (k : Int) (hk : (n : Int) ≤ k) :
    _getMaxK_select sqrt st movieName userName k =
        _getMaxK_select sqrt st movieName userName n ∧
      (∀ q, _getMaxK_select sqrt st movieName userName k = .ok q →
        q.length = st.movies.countP (ratedIn userMap)) ∧
      predictMovieScoreForUser sqrt st movieName userName k =
        predictMovieScoreForUser sqrt st movieName userName n := by
  have hcnt : st.movies.countP (ratedIn userMap) ≤ n :=
    hn ▸ countP_ratedIn_le st.movies hnd userMap
  have hroom : (((([] : Queue F).length + st.movies.countP (ratedIn userMap) : Nat)) : Int)
      ≤ k := by
    simp only [List.length_nil, Nat.zero_add]
    exact le_trans (Int.ofNat_le.2 hcnt) hk
  have hsel : _getMaxK_select sqrt st movieName userName k =
      _getMaxK_select sqrt st movieName userName n := by
    unfold _getMaxK_select
    apply _getMaxK_loop_room sqrt st movieName userName userMap hu _ _ _ _ hroom
    simp only [List.length_nil, Nat.zero_add]
    exact Int.ofNat_le.2 hcnt
  refine ⟨hsel, ?_, ?_⟩
  · intro q hq
    have := _getMaxK_loop_length sqrt st movieName userName userMap hu k st.movies [] q
      hroom hq
    simpa using this
  · simp only [predictMovieScoreForUser, _getMaxK, hsel]

end UsingAll

section Examples

open Dbl (fin pinf ninf nan)

theorem exampleState_loaded (F : Type) [LinearOrderedField F] : Loaded (exampleState F) :=
  ⟨exampleStod F, exampleLines,
    { exampleState F with users := [], moviesNames := [] }, rfl, rfl, rfl⟩

theorem DBL_MAX_pos (F : Type) [LinearOrderedField F] : (0 : F) < Dbl.DBL_MAX := by
  unfold Dbl.DBL_MAX
  apply mul_pos
  · have : (1 : F) / 2 ^ 52 ≤ 1 := by
      rw [div_le_one (by positivity)]
      exact one_le_pow₀ (by norm_num)
    linarith
  · positivity

theorem DBL_MIN_pos (F : Type) [LinearOrderedField F] : (0 : F) < Dbl.DBL_MIN := by
  unfold Dbl.DBL_MIN
  positivity

theorem fin_sub_fin {F : Type} [LinearOrderedField F] (a b : F) :
    (fin a - fin b : Dbl F) = fin (a - b) := by
  show Dbl.add (fin a) (Dbl.neg (fin b)) = fin (a - b)
  simp [Dbl.add, Dbl.neg, sub_eq_add_neg]

theorem eq_fin_fin {F : Type} [LinearOrderedField F] (a b : F) :
    Dbl.eq (fin a) (fin b) = decide (a = b) := rfl

theorem ne_fin_fin {F : Type} [LinearOrderedField F] (a b : F) :
    Dbl.ne (fin a) (fin b) = !decide (a = b) := rfl

theorem example_normMap :
    _getNormOfVec ([("A", fin 4), ("B", fin 2), ("C", fin 0)] : UMap (Dbl ℝ)) =
      [("A", fin 1), ("B", fin (-1)), ("C", fin 0)] := by
  norm_num [_getNormOfVec, ne_fin_fin, fin_add_fin, fin_sub_fin, fin_div_fin]

theorem example_prefVec :
    _getPrefVec (exampleState ℝ) [("A", fin 1), ("B", fin (-1)), ("C", fin 0)] =
      .ok [fin 1, fin (-1)] := by
  simp [_getPrefVec, _getPrefVec_add, exampleState, exampleStateOn, exampleCatalog, UMap.find,
    ne_fin_fin, fin_add_fin, fin_mul_fin, idx, List.range_succ, bind, Except.bind, pure, Except.pure]

theorem example_score_C :
    _getMovieScore Real.sqrt 2 [fin 1, fin (-1)] [fin 1, fin 1] = .ok (fin (0 : ℝ)) := by
  have h := _getMovieScore_cosine Real.sqrt 2 [1, -1] [1, 1] (by simp) (by simp)
    (by norm_num [dot, Finset.sum_range_succ])
  simp only [List.map] at h
  rw [h]
  norm_num [cosine, dot, Finset.sum_range_succ]

theorem example_recommendByContent :
    recommendByContent Real.sqrt (exampleState ℝ) "u2" = .ok "C" := by
  have hu : (exampleState ℝ).users.find "u2" =
      some [("A", fin 4), ("B", fin 2), ("C", fin 0)] := rfl
  simp only [recommendByContent, hu, atKey_of_find hu, bind, Except.bind, example_normMap,
    example_prefVec]
  have hmax := DBL_MAX_pos ℝ
  simp [_getMaxSimilarityMov, _getMaxSimilarityMov_step, exampleState, exampleStateOn,
    exampleCatalog, UMap.atKey,
    UMap.find, eq_fin_fin, gt_fin_fin, example_score_C, bind, Except.bind, pure, Except.pure,
    hmax]

end Examples

section Scenario

open Dbl (fin pinf ninf nan)

theorem DBL_MIN_le_one (F : Type) [LinearOrderedField F] : (Dbl.DBL_MIN : F) ≤ 1 := by
  unfold Dbl.DBL_MIN
  rw [div_le_one (by positivity)]
  exact one_le_pow₀ (by norm_num)

theorem example_score_A :
    _getMovieScore Real.sqrt 2 [fin 1, fin 0] [fin 1, fin 1] =
      .ok (fin (1 / Real.sqrt 2)) := by
  have h := _getMovieScore_cosine Real.sqrt 2 [1, 0] [1, 1] (by simp) (by simp)
    (by norm_num [dot, Finset.sum_range_succ])
  simp only [List.map] at h
  rw [h]
  norm_num [cosine, dot, Finset.sum_range_succ]

theorem example_score_B :
    _getMovieScore Real.sqrt 2 [fin 0, fin 1] [fin 1, fin 1] =
      .ok (fin (1 / Real.sqrt 2)) := by
  have h := _getMovieScore_cosine Real.sqrt 2 [0, 1] [1, 1] (by simp) (by simp)
    (by norm_num [dot, Finset.sum_range_succ])
  simp only [List.map] at h
  rw [h]
  norm_num [cosine, dot, Finset.sum_range_succ]

theorem example_select :
    _getMaxK_select Real.sqrt (exampleState ℝ) "C" "u2" 2 =
      .ok [("A", fin (1 / Real.sqrt 2)), ("B", fin (1 / Real.sqrt 2))] := by
  simp [_getMaxK_select, _getMaxK_step, exampleState, exampleStateOn, exampleCatalog,
    UMap.atKey, UMap.find, ne_fin_fin,
    example_score_A, example_score_B, Queue.push, cmp, gt_fin_fin, bind, Except.bind, pure,
    Except.pure]

theorem example_predict :
    predictMovieScoreForUser Real.sqrt (exampleState ℝ) "C" "u2" 2 = .ok (fin 3) := by
  have hu : (exampleState ℝ).users.find "u2" =
      some [("A", fin 4), ("B", fin 2), ("C", fin 0)] := rfl
  have hm : (exampleState ℝ).movies.find "C" = some [fin 1, fin 1] := rfl
  have hpos : (0 : ℝ) < Real.sqrt 2 := Real.sqrt_pos.2 (by norm_num)
  have hden : (Real.sqrt 2)⁻¹ + (Real.sqrt 2)⁻¹ ≠ 0 := by positivity
  simp only [predictMovieScoreForUser, hu, hm, _getMaxK, example_select, bind, Except.bind,
    _getMaxK_sums, List.foldlM_cons, List.foldlM_nil, atKey_of_find hu]
  simp [UMap.atKey, UMap.find, fin_add_fin, fin_mul_fin, fin_div_fin, hden, pure,
    Except.pure]
  field_simp
  ring

end Scenario

section ScenarioOrder

open Dbl (fin pinf ninf nan)

theorem perm_three {α : Type} {a b c : α} {l : List α} (h : l.Perm [a, b, c]) :
    l = [a, b, c] ∨ l = [b, a, c] ∨ l = [b, c, a] ∨ l = [a, c, b] ∨ l = [c, a, b] ∨
      l = [c, b, a] := by
  have hm := List.mem_permutations'.2 h
  simpa [List.permutations', List.permutations'Aux] using hm

theorem scenario_select (movies : UMap (List (Dbl ℝ)))
    (hperm : movies.Perm (exampleCatalog ℝ)) :
    ∃ q, _getMaxK_select Real.sqrt (exampleStateOn ℝ movies) "C" "u2" 2 = .ok q ∧
      (q = [("A", fin (1 / Real.sqrt 2)), ("B", fin (1 / Real.sqrt 2))] ∨
        q = [("B", fin (1 / Real.sqrt 2)), ("A", fin (1 / Real.sqrt 2))]) := by
  rcases perm_three hperm with h | h | h | h | h | h
  all_goals
    subst h
    simp [_getMaxK_select, _getMaxK_step, exampleStateOn, UMap.atKey, UMap.find, ne_fin_fin,
      example_score_A, example_score_B, Queue.push, cmp, gt_fin_fin, bind, Except.bind,
      pure, Except.pure]

/-- C6: on the catalog `A = [1, 0]`, `B = [0, 1]`, `C = [1, 1]` with two attributes,
enumerated in any order, and the ratings `A = 4`, `B = 2`, `C = 0` of user `u2`, the first loop
of `_getMaxK` for movie `C` and `k = 2` retains exactly `A` and `B`, each with similarity
`1 / √2`, and `predictMovieScoreForUser` returns `3`, over the real numbers. -/
theorem scenario_predict (movies : UMap (List (Dbl ℝ)))
    (hperm : movies.Perm (exampleCatalog ℝ)) :
    (∃ q, _getMaxK_select Real.sqrt (exampleStateOn ℝ movies) "C" "u2" 2 = .ok q ∧
        q.Perm [("A", fin (1 / Real.sqrt 2)), ("B", fin (1 / Real.sqrt 2))]) ∧
      predictMovieScoreForUser Real.sqrt (exampleStateOn ℝ movies) "C" "u2" 2 =
        .ok (fin 3) := by
  have hpos : (0 : ℝ) < Real.sqrt 2 := Real.sqrt_pos.2 (by norm_num)
  have hden : (Real.sqrt 2)⁻¹ + (Real.sqrt 2)⁻¹ ≠ 0 := by positivity
  have hval : ((Real.sqrt 2)⁻¹ * 4 + (Real.sqrt 2)⁻¹ * 2) /
      ((Real.sqrt 2)⁻¹ + (Real.sqrt 2)⁻¹) = 3 := by
    field_simp
    ring
  have hval' : ((Real.sqrt 2)⁻¹ * 2 + (Real.sqrt 2)⁻¹ * 4) /
      ((Real.sqrt 2)⁻¹ + (Real.sqrt 2)⁻¹) = 3 := by
    field_simp
    ring
  obtain ⟨q, hq, hcases⟩ := scenario_select movies hperm
  have hmem : "C" ∈ UMap.keys (exampleStateOn ℝ movies).movies := by
    have : "C" ∈ UMap.keys (exampleCatalog ℝ) := by simp [exampleCatalog, UMap.keys]
    exact (List.Perm.map Prod.fst hperm).mem_iff.2 this
  have hu : "u2" ∈ UMap.keys (exampleStateOn ℝ movies).users := by
    simp [exampleStateOn, UMap.keys]
  refine ⟨⟨q, hq, ?_⟩, ?_⟩
  · rcases hcases with h | h
    · rw [h]
    · rw [h]
      exact List.Perm.swap _ _ _
  · rw [predictMovieScoreForUser_of_mem Real.sqrt _ "C" "u2" 2 hu hmem]
    simp only [_getMaxK, hq, bind, Except.bind]
    rcases hcases with h | h <;> subst h <;>
      simp [_getMaxK_sums, exampleStateOn, UMap.atKey, UMap.find, fin_add_fin, fin_mul_fin,
        fin_div_fin, hden, hval, hval', bind, Except.bind, pure, Except.pure]

/-- Witness of C6 for the catalog enumerated in the order `A`, `B`, `C`. -/
theorem scenario_predict_witness :
    (∃ q, _getMaxK_select Real.sqrt (exampleStateOn ℝ (exampleCatalog ℝ)) "C" "u2" 2 = .ok q ∧
        q.Perm [("A", fin (1 / Real.sqrt 2)), ("B", fin (1 / Real.sqrt 2))]) ∧
      predictMovieScoreForUser Real.sqrt (exampleStateOn ℝ (exampleCatalog ℝ)) "C" "u2" 2 =
        .ok (fin 3) :=
  scenario_predict (exampleCatalog ℝ) (List.Perm.refl _)

end ScenarioOrder

section Witnesses

open Dbl (fin pinf ninf nan)

theorem example_find_u2 (F : Type) [LinearOrderedField F] :
    (exampleState F).users.find "u2" =
      some [("A", fin 4), ("B", fin 2), ("C", fin 0)] := rfl

theorem example_recommendByCF :
    recommendByCF Real.sqrt (exampleState ℝ) "u2" 2 = .ok "C" := by
  have hmin : (Dbl.DBL_MIN : ℝ) < 3 := lt_of_le_of_lt (DBL_MIN_le_one ℝ) (by norm_num)
  have hp := example_predict
  simp only [recommendByCF, example_find_u2, bind, Except.bind]
  simp [recommendByCF_step, exampleState, exampleStateOn, UMap.atKey, UMap.find, eq_fin_fin,
    bind, Except.bind, pure, Except.pure]
  simp only [exampleState, exampleStateOn] at hp
  simp [hp, gt_fin_fin, hmin]

theorem example_numRated :
    numRated ([("A", fin 4), ("B", fin 2), ("C", fin 0)] : UMap (Dbl ℝ)) = 2 := by
  simp [numRated, List.countP_cons, ne_fin_fin]

/-- Witness of C1 for the unknown user `nobody` and `k = 3`. -/
theorem recommend_user_not_found_witness :
    "nobody" ∉ (exampleState ℝ).users.keys ∧
      recommendByContent Real.sqrt (exampleState ℝ) "nobody" = .ok "USER NOT FOUND" ∧
      recommendByCF Real.sqrt (exampleState ℝ) "nobody" 3 = .ok "USER NOT FOUND" :=
  have h : "nobody" ∉ (exampleState ℝ).users.keys := by
    simp [exampleState, exampleStateOn, UMap.keys]
  ⟨h, (recommend_user_not_found Real.sqrt (exampleState ℝ) "nobody" h).1,
    (recommend_user_not_found Real.sqrt (exampleState ℝ) "nobody" h).2 3⟩

/-- Witness of C3: user `u2` of the loaded example is recommended the movie `C`, which `u2`
has not rated. -/
theorem recommendByContent_never_rated_witness :
    Loaded (exampleState ℝ) ∧
      recommendByContent Real.sqrt (exampleState ℝ) "u2" = .ok "C" ∧
      Dbl.ne (fin (0 : ℝ)) (fin 0) = false :=
  ⟨exampleState_loaded ℝ, example_recommendByContent,
    recommendByContent_never_rated Real.sqrt (exampleState ℝ) (exampleState_loaded ℝ) "u2" "C"
      _ (example_find_u2 ℝ) example_recommendByContent (fin 0) rfl⟩

/-- Witness of C4: user `u2` of the loaded example is recommended the movie `C` for `k = 2`,
which `u2` has not rated. -/
theorem recommendByCF_never_rated_witness :
    Loaded (exampleState ℝ) ∧
      recommendByCF Real.sqrt (exampleState ℝ) "u2" 2 = .ok "C" ∧
      Dbl.ne (fin (0 : ℝ)) (fin 0) = false :=
  ⟨exampleState_loaded ℝ, example_recommendByCF,
    recommendByCF_never_rated Real.sqrt (exampleState ℝ) (exampleState_loaded ℝ) "u2" "C" 2
      _ (example_find_u2 ℝ) example_recommendByCF (fin 0) rfl⟩

/-- Witness of C5: user `u2` of the example has rated two movies, and the prediction for
movie `C` with `k = 7` is the one with `k = 2`. -/
theorem predictMovieScoreForUser_all_rated_witness :
    (exampleState ℝ).movies.keys.Nodup ∧
      predictMovieScoreForUser Real.sqrt (exampleState ℝ) "C" "u2" 7 =
        predictMovieScoreForUser Real.sqrt (exampleState ℝ) "C" "u2" (2 : Nat) :=
  have hnd : (exampleState ℝ).movies.keys.Nodup := by
    simp [exampleState, exampleStateOn, exampleCatalog, UMap.keys]
  ⟨hnd, (predictMovieScoreForUser_all_rated Real.sqrt (exampleState ℝ) hnd "C" "u2" _
    (example_find_u2 ℝ) 2 example_numRated.symm 7 (by norm_num)).2.2⟩

end Witnesses

section ArgMax

variable {F : Type} [LinearOrderedField F]

open Dbl (fin pinf ninf nan)

end ArgMax

section ContentBest

variable {F : Type} [LinearOrderedField F]

open Dbl (fin pinf ninf nan)

end ContentBest

section ContentBestWitness

open Dbl (fin pinf ninf nan)

end ContentBestWitness

section NegativePrediction

open Dbl (fin pinf ninf nan)

theorem negativeState_loaded (F : Type) [LinearOrderedField F] : Loaded (negativeState F) :=
  ⟨negativeStod F, negativeLines,
    { negativeState F with users := [], moviesNames := [] }, rfl, rfl, rfl⟩

theorem real_sqrt_four : Real.sqrt 4 = 2 := by
  rw [show (4 : ℝ) = 2 ^ 2 by norm_num]
  exact Real.sqrt_sq (by norm_num)

theorem real_sqrt_twenty_five : Real.sqrt 25 = 5 := by
  rw [show (25 : ℝ) = 5 ^ 2 by norm_num]
  exact Real.sqrt_sq (by norm_num)

theorem negative_score_A :
    _getMovieScore Real.sqrt 2 [fin 2, fin 0] [fin 1, fin 0] = .ok (fin (1 : ℝ)) := by
  have h := _getMovieScore_cosine Real.sqrt 2 [2, 0] [1, 0] (by simp) (by simp)
    (by norm_num [dot, Finset.sum_range_succ, real_sqrt_four])
  simp only [List.map] at h
  rw [h]
  norm_num [cosine, dot, Finset.sum_range_succ, real_sqrt_four]

theorem negative_score_B :
    _getMovieScore Real.sqrt 2 [fin (-3), fin 4] [fin 1, fin 0] = .ok (fin (-3 / 5 : ℝ)) := by
  have h := _getMovieScore_cosine Real.sqrt 2 [-3, 4] [1, 0] (by simp) (by simp)
    (by norm_num [dot, Finset.sum_range_succ, real_sqrt_twenty_five])
  simp only [List.map] at h
  rw [h]
  norm_num [cosine, dot, Finset.sum_range_succ, real_sqrt_twenty_five]

theorem negative_select :
    _getMaxK_select Real.sqrt (negativeState ℝ) "C" "u" 2 =
      .ok [("B", fin (-3 / 5)), ("A", fin 1)] := by
  simp [_getMaxK_select, _getMaxK_step, negativeState, UMap.atKey, UMap.find, ne_fin_fin,
    negative_score_A, negative_score_B, Queue.push, cmp, gt_fin_fin, bind, Except.bind, pure,
    Except.pure]
  norm_num

theorem negative_predict :
    predictMovieScoreForUser Real.sqrt (negativeState ℝ) "C" "u" 2 = .ok (fin (-5)) := by
  have hu : (negativeState ℝ).users.find "u" =
      some [("A", fin 1), ("B", fin 5), ("C", fin 0)] := rfl
  have hm : (negativeState ℝ).movies.find "C" = some [fin 1, fin 0] := rfl
  simp only [predictMovieScoreForUser, hu, hm, _getMaxK, negative_select, bind, Except.bind,
    _getMaxK_sums, List.foldlM_cons, List.foldlM_nil, atKey_of_find hu]
  simp [UMap.atKey, UMap.find, fin_add_fin, fin_mul_fin, pure, Except.pure]
  rw [fin_div_fin _ _ (by norm_num)]
  norm_num

/-- C10, the failing input: user `u` of `negativeState` has rated `A` and `B` and not `C`;
for `k = 2` the prediction for `C`, the only unrated movie, is `-5`, which is not greater than
the initial `DBL_MIN`, and `recommendByCF` returns the empty name instead of `C`. -/
theorem recommendByCF_negative_prediction :
    Loaded (negativeState ℝ) ∧
      (negativeState ℝ).users.find "u" = some [("A", fin 1), ("B", fin 5), ("C", fin 0)] ∧
      predictMovieScoreForUser Real.sqrt (negativeState ℝ) "C" "u" 2 = .ok (fin (-5)) ∧
      recommendByCF Real.sqrt (negativeState ℝ) "u" 2 = .ok "" := by
  refine ⟨negativeState_loaded ℝ, rfl, negative_predict, ?_⟩
  have hu : (negativeState ℝ).users.find "u" =
      some [("A", fin 1), ("B", fin 5), ("C", fin 0)] := rfl
  have hmin : ¬ (Dbl.DBL_MIN : ℝ) < -5 := by
    have := DBL_MIN_pos ℝ
    linarith
  have hp := negative_predict
  simp only [recommendByCF, hu, bind, Except.bind]
  simp [recommendByCF_step, negativeState, UMap.atKey, UMap.find, eq_fin_fin, bind,
    Except.bind, pure, Except.pure]
  simp only [negativeState] at hp
  simp [hp, gt_fin_fin, hmin]

end NegativePrediction

section Selection

variable {F : Type} [LinearOrderedField F]

open Dbl (fin pinf ninf nan)

theorem pushF_perm (q : List (String × F)) (a : String × F) : (pushF q a).Perm (a :: q) := by
  induction q with
  | nil => exact List.Perm.refl _
  | cons e es ih =>
    by_cases h : a.2 < e.2
    · simp [pushF, h]
    · simp only [pushF, h, if_false]
      exact (List.Perm.cons e ih).trans (List.Perm.swap a e es)

theorem pushF_length (q : List (String × F)) (a : String × F) :
    (pushF q a).length = q.length + 1 := by
  simpa using (pushF_perm q a).length_eq

theorem pushF_sorted (q : List (String × F)) (a : String × F)
    (h : q.Pairwise (fun x y => x.2 ≤ y.2)) : (pushF q a).Pairwise (fun x y => x.2 ≤ y.2) := by
  induction q with
  | nil => simp [pushF]
  | cons e es ih =>
    rw [List.pairwise_cons] at h
    by_cases hlt : a.2 < e.2
    · simp only [pushF, hlt, if_true]
      refine List.pairwise_cons.2 ⟨?_, List.pairwise_cons.2 h⟩
      intro y hy
      rcases List.mem_cons.1 hy with hy | hy
      · rw [hy]
        exact hlt.le
      · exact le_trans hlt.le (h.1 y hy)
    · simp only [pushF, hlt, if_false]
      refine List.pairwise_cons.2 ⟨?_, ih h.2⟩
      intro y hy
      rcases List.mem_cons.1 ((pushF_perm es a).subset hy) with hy | hy
      · rw [hy]
        exact not_lt.1 hlt
      · exact h.1 y hy

theorem Selected.step {k : Int} (hk : 1 ≤ k) {q seen : List (String × F)}
    (h : Selected k q seen) (a : String × F) :
    Selected k (selectStepF k q a) (seen ++ [a]) := by
  obtain ⟨hs, hlen, dropped, hperm, hdrop⟩ := h
  have hseen : ((seen ++ [a]).length : Int) = (seen.length : Int) + 1 := by simp
  unfold selectStepF
  by_cases hroom : (q.length : Int) < k
  · simp only [hroom, if_true]
    refine ⟨pushF_sorted q a hs, ?_, dropped, ?_, ?_⟩
    · rw [pushF_length, hseen]
      push_cast
      have h1 : (q.length : Int) = (seen.length : Int) := by
        rcases min_cases k (seen.length : Int) with ⟨h, _⟩ | ⟨h, _⟩ <;> omega
      rw [h1] at hroom ⊢
      rw [min_eq_right (by omega)]
    · have h1 : (pushF q a ++ dropped).Perm (a :: (q ++ dropped)) :=
        List.Perm.append_right dropped (pushF_perm q a)
      have h2 : (a :: (q ++ dropped)).Perm (a :: seen) := List.Perm.cons a hperm
      exact (h1.trans h2).trans (List.perm_append_singleton a seen).symm
    · intro d hd t ht
      rcases List.mem_cons.1 ((pushF_perm q a).subset ht) with ht | ht
      · exfalso
        have hle : seen.length ≤ q.length := by
          have := hperm.length_eq
          rw [List.length_append] at this
          have hpos : 0 < dropped.length := List.length_pos_of_mem hd
          have h1 : (q.length : Int) = k := by
            rcases min_cases k (seen.length : Int) with ⟨h, _⟩ | ⟨h, h'⟩ <;> omega
          omega
        have := hperm.length_eq
        rw [List.length_append] at this
        have hpos : 0 < dropped.length := List.length_pos_of_mem hd
        omega
      · exact hdrop d hd t ht
  · simp only [hroom, if_false]
    have hqk : (q.length : Int) = k := by
      rcases min_cases k (seen.length : Int) with ⟨h, _⟩ | ⟨h, h'⟩ <;> omega
    have hks : k ≤ (seen.length : Int) := by
      rcases min_cases k (seen.length : Int) with ⟨h, h'⟩ | ⟨h, h'⟩ <;> omega
    cases q with
    | nil => simp at hqk; omega
    | cons t rest =>
      rw [List.pairwise_cons] at hs
      by_cases hgt : t.2 < a.2
      · simp only [hgt, if_true]
        refine ⟨pushF_sorted rest a hs.2, ?_, t :: dropped, ?_, ?_⟩
        · rw [pushF_length, hseen, min_eq_left (by omega)]
          simpa using hqk
        · have h1 : (pushF rest a ++ t :: dropped).Perm (a :: (rest ++ t :: dropped)) :=
            List.Perm.append_right _ (pushF_perm rest a)
          have h2 : (rest ++ t :: dropped).Perm (t :: rest ++ dropped) := List.perm_middle
          have h3 : (a :: (rest ++ t :: dropped)).Perm (a :: seen) :=
            List.Perm.cons a (h2.trans hperm)
          exact (h1.trans h3).trans (List.perm_append_singleton a seen).symm
        · intro d hd x hx
          have hdt : d.2 ≤ t.2 := by
            rcases List.mem_cons.1 hd with hd | hd
            · rw [hd]
            · exact hdrop d hd t (List.mem_cons_self _ _)
          rcases List.mem_cons.1 ((pushF_perm rest a).subset hx) with hx | hx
          · rw [hx]
            exact le_trans hdt hgt.le
          · exact le_trans hdt (hs.1 x hx)
      · simp only [hgt, if_false]
        refine ⟨List.pairwise_cons.2 hs, ?_, a :: dropped, ?_, ?_⟩
        · rw [hseen, min_eq_left (by omega)]
          exact hqk
        · have h2 : (t :: rest ++ a :: dropped).Perm (a :: (t :: rest ++ dropped)) :=
            List.perm_middle
          exact (h2.trans (List.Perm.cons a hperm)).trans
            (List.perm_append_singleton a seen).symm
        · intro d hd x hx
          rcases List.mem_cons.1 hd with hd | hd
          · rw [hd]
            rcases List.mem_cons.1 hx with hx | hx
            · rw [hx]
              exact not_lt.1 hgt
            · exact le_trans (not_lt.1 hgt) (hs.1 x hx)
          · exact hdrop d hd x hx

theorem Selected.foldl {k : Int} (hk : 1 ≤ k) (l : List (String × F)) :
    ∀ {q seen : List (String × F)}, Selected k q seen →
      Selected k (l.foldl (selectStepF k) q) (seen ++ l) := by
  induction l with
  | nil => intro q seen h; simpa using h
  | cons a l ih =>
    intro q seen h
    have := ih (h.step hk a)
    simpa using this

theorem Selected.nil (k : Int) (hk : 1 ≤ k) : Selected k ([] : List (String × F)) [] := by
  refine ⟨List.Pairwise.nil, ?_, [], List.Perm.refl _, fun d hd => by cases hd⟩
  simp
  omega

end Selection

section Simulation

variable {F : Type} [LinearOrderedField F]

open Dbl (fin pinf ninf nan)

/-- The second loop of `_getMaxK` on a queue of numbers whose movies have ratings that are
numbers. -/
theorem _getMaxK_sums_fin (st : State F) (userName : String) (userMap : UMap (Dbl F))
    (hu : st.users.find userName = some userMap) (r : String → F) :
    ∀ (q : List (String × F)) (up dn : F),
      (∀ t ∈ q, userMap.find t.1 = some (fin (r t.1))) →
      (finQueue q).foldlM
        (fun (sums : Dbl F × Dbl F) t => do
          let userMap ← st.users.atKey userName
          let r ← userMap.atKey t.1
          pure (sums.1 + t.2 * r, sums.2 + t.2))
        (fin up, fin dn) = .ok (fin (up + upF r q), fin (dn + doF q)) := by
  intro q
  induction q with
  | nil => intro up dn _; simp [finQueue, upF, doF, pure, Except.pure]
  | cons t q ih =>
    intro up dn hq
    have ht := hq t (List.mem_cons_self _ _)
    have ih' := ih (up + t.2 * r t.1) (dn + t.2) (fun x hx => hq x (List.mem_cons_of_mem _ hx))
    simp only [finQueue, List.map_cons, List.foldlM_cons, atKey_of_find hu, atKey_of_find ht,
      bind, Except.bind, pure, Except.pure, fin_mul_fin, fin_add_fin] at ih' ⊢
    rw [ih']
    simp [upF, doF, add_assoc]

end Simulation

section Uniqueness

variable {F : Type} [LinearOrderedField F]

open Dbl (fin pinf ninf nan)

end Uniqueness

section TopK

variable {F : Type} [LinearOrderedField F]

open Dbl (fin pinf ninf nan)

theorem find_of_mem_nodup {V : Type} {m : UMap V} (hnd : m.keys.Nodup) {key : String} {v : V}
    (h : (key, v) ∈ m) : m.find key = some v := by
  induction m with
  | nil => cases h
  | cons p rest ih =>
    obtain ⟨k, w⟩ := p
    simp only [UMap.keys, List.map_cons, List.nodup_cons] at hnd
    rcases List.mem_cons.1 h with h | h
    · cases h
      simp [UMap.find]
    · have hk : k ≠ key := by
        intro hk
        apply hnd.1
        rw [hk]
        exact List.mem_map.2 ⟨(key, v), h, rfl⟩
      simp only [UMap.find, hk, if_false]
      exact ih hnd.2 h

end TopK

section TopKClaim

variable {F : Type} [LinearOrderedField F]

open Dbl (fin pinf ninf nan)

end TopKClaim

section ZeroVector

open Dbl (fin pinf ninf nan)

theorem fin_zero_div_zero {F : Type} [LinearOrderedField F] :
    (fin 0 / fin 0 : Dbl F) = nan := by
  show Dbl.div (fin 0) (fin 0) = nan
  simp [Dbl.div]

end ZeroVector

section ScoredExample

open Dbl (fin pinf ninf nan)

end ScoredExample

section OrderIndependence

variable {F : Type} [LinearOrderedField F]

open Dbl (fin pinf ninf nan)

end OrderIndependence

section WeightedAverage

variable {F : Type} [LinearOrderedField F]

open Dbl (fin pinf ninf nan)

theorem upF_cons (r : String → F) (t : String × F) (q : List (String × F)) :
    upF r (t :: q) = t.2 * r t.1 + upF r q := by
  simp [upF]

theorem doF_cons (t : String × F) (q : List (String × F)) : doF (t :: q) = t.2 + doF q := by
  simp [doF]

theorem doF_nonneg (q : List (String × F)) (h : ∀ t ∈ q, 0 ≤ t.2) : 0 ≤ doF q := by
  induction q with
  | nil => simp [doF]
  | cons t q ih =>
    rw [doF_cons]
    exact add_nonneg (h t (List.mem_cons_self _ _))
      (ih (fun x hx => h x (List.mem_cons_of_mem _ hx)))

theorem lower_mul_doF_le (r : String → F) (lo : F) (q : List (String × F))
    (h : ∀ t ∈ q, 0 ≤ t.2) (hlo : ∀ t ∈ q, lo ≤ r t.1) : lo * doF q ≤ upF r q := by
  induction q with
  | nil => simp [doF, upF]
  | cons t q ih =>
    rw [doF_cons, upF_cons]
    have h1 := ih (fun x hx => h x (List.mem_cons_of_mem _ hx))
      (fun x hx => hlo x (List.mem_cons_of_mem _ hx))
    have h2 : lo * t.2 ≤ t.2 * r t.1 := by
      rw [mul_comm]
      exact mul_le_mul_of_nonneg_left (hlo t (List.mem_cons_self _ _))
        (h t (List.mem_cons_self _ _))
    linarith

theorem upF_le_upper_mul (r : String → F) (hi : F) (q : List (String × F))
    (h : ∀ t ∈ q, 0 ≤ t.2) (hhi : ∀ t ∈ q, r t.1 ≤ hi) : upF r q ≤ hi * doF q := by
  induction q with
  | nil => simp [doF, upF]
  | cons t q ih =>
    rw [doF_cons, upF_cons]
    have h1 := ih (fun x hx => h x (List.mem_cons_of_mem _ hx))
      (fun x hx => hhi x (List.mem_cons_of_mem _ hx))
    have h2 : t.2 * r t.1 ≤ hi * t.2 := by
      rw [mul_comm hi]
      exact mul_le_mul_of_nonneg_left (hhi t (List.mem_cons_self _ _))
        (h t (List.mem_cons_self _ _))
    linarith

theorem lower_mul_doF_lt (r : String → F) (c : F) (q : List (String × F))
    (h : ∀ t ∈ q, 0 ≤ t.2) (hc : ∀ t ∈ q, c < r t.1) (hpos : 0 < doF q) :
    c * doF q < upF r q := by
  induction q with
  | nil => simp [doF] at hpos
  | cons t q ih =>
    have hq : ∀ x ∈ q, 0 ≤ x.2 := fun x hx => h x (List.mem_cons_of_mem _ hx)
    have hcq : ∀ x ∈ q, c < r x.1 := fun x hx => hc x (List.mem_cons_of_mem _ hx)
    have ht : 0 ≤ t.2 := h t (List.mem_cons_self _ _)
    have hct : c < r t.1 := hc t (List.mem_cons_self _ _)
    rw [doF_cons] at hpos ⊢
    rw [upF_cons]
    have hweak := lower_mul_doF_le r c q hq (fun x hx => (hcq x hx).le)
    rcases ht.eq_or_lt with h0 | h0
    · rw [← h0] at hpos ⊢
      have := ih hq hcq (by simpa using hpos)
      simpa using this
    · have h2 : c * t.2 < t.2 * r t.1 := by
        rw [mul_comm]
        exact mul_lt_mul_of_pos_left hct h0
      linarith

theorem finQueue_injective : Function.Injective (finQueue : List (String × F) → Queue F) := by
  apply List.map_injective_iff.2
  intro a b h
  simp only [Prod.mk.injEq, Dbl.fin.injEq] at h
  exact Prod.ext h.1 h.2

theorem mem_push {q : Queue F} {a x : String × Dbl F} (h : x ∈ Queue.push q a) :
    x = a ∨ x ∈ q := by
  induction q with
  | nil => simpa [Queue.push] using h
  | cons e es ih =>
    by_cases hc : cmp e a = true
    · have h1 : x ∈ a :: e :: es := by simpa [Queue.push, hc] using h
      rcases List.mem_cons.1 h1 with h2 | h2
      · exact Or.inl h2
      · exact Or.inr h2
    · have h1 : x ∈ e :: Queue.push es a := by simpa [Queue.push, hc] using h
      rcases List.mem_cons.1 h1 with h2 | h2
      · exact Or.inr (List.mem_cons.2 (Or.inl h2))
      · rcases ih h2 with h3 | h3
        · exact Or.inl h3
        · exact Or.inr (List.mem_cons_of_mem _ h3)

theorem mem_pop {G : Type} {q : Queue G} {x : String × Dbl G} (h : x ∈ Queue.pop q) :
    x ∈ q := by
  cases q with
  | nil => cases h
  | cons e es => exact List.mem_cons_of_mem _ h

/-- Every movie that the first loop of `_getMaxK` retains is rated in the row of the user. -/
theorem _getMaxK_select_rated (sqrt : F → F) (st : State F) (movieName userName : String)
    (userMap : UMap (Dbl F)) (hu : st.users.find userName = some userMap) (k : Int)
    (q : Queue F) (h : _getMaxK_select sqrt st movieName userName k = .ok q) :
    ∀ t ∈ q, ∃ v, userMap.find t.1 = some v ∧ Dbl.ne v (fin 0) = true := by
  unfold _getMaxK_select at h
  refine foldlM_invariant
    (fun q => ∀ t ∈ q, ∃ v, userMap.find t.1 = some v ∧ Dbl.ne v (fin 0) = true) _ ?_
    st.movies [] q (fun t ht => by cases ht) h
  intro b e b' hb hstep
  unfold _getMaxK_step at hstep
  rw [atKey_of_find hu] at hstep
  obtain ⟨um, hum, hstep⟩ := except_bind_ok hstep
  cases hum
  obtain ⟨v, hv, hstep⟩ := except_bind_ok hstep
  by_cases hne : Dbl.ne v (fin 0) = true
  · simp only [hne, if_true] at hstep
    obtain ⟨target, _, hstep⟩ := except_bind_ok hstep
    obtain ⟨movieRank, _, hstep⟩ := except_bind_ok hstep
    have hnew : ∃ w, userMap.find (e.1, movieRank).1 = some w ∧ Dbl.ne w (fin 0) = true :=
      ⟨v, find_of_atKey hv, hne⟩
    by_cases hroom : (b.length : Int) < k
    · simp only [hroom, if_true, pure, Except.pure, Except.ok.injEq] at hstep
      subst hstep
      intro t ht
      rcases mem_push ht with ht | ht
      · rw [ht]
        exact hnew
      · exact hb t ht
    · simp only [hroom, if_false] at hstep
      obtain ⟨top, _, hstep⟩ := except_bind_ok hstep
      split at hstep
      · simp only [pure, Except.pure, Except.ok.injEq] at hstep
        subst hstep
        intro t ht
        rcases mem_push ht with ht | ht
        · rw [ht]
          exact hnew
        · exact hb t (mem_pop ht)
      · simp only [pure, Except.pure, Except.ok.injEq] at hstep
        subst hstep
        exact hb
  · simp only [hne, Bool.false_eq_true, if_false, pure, Except.pure, Except.ok.injEq] at hstep
    subst hstep
    exact hb

/-- When the first loop of `_getMaxK` retains movies whose similarities and ratings are
numbers, `predictMovieScoreForUser` returns the quotient of the weighted sum of the ratings
by the sum of the similarities. -/
theorem predict_of_retained (sqrt : F → F) (st : State F) (movieName userName : String)
    (userMap : UMap (Dbl F)) (hu : st.users.find userName = some userMap)
    (hm : movieName ∈ st.movies.keys) (r : String → F) (k : Int)
    (retained : List (String × F))
    (hret : _getMaxK_select sqrt st movieName userName k = .ok (finQueue retained))
    (hrat : ∀ t ∈ retained, userMap.find t.1 = some (fin (r t.1))) :
    predictMovieScoreForUser sqrt st movieName userName k =
        .ok (fin (upF r retained) / fin (doF retained)) ∧
      ∀ t ∈ retained, r t.1 ≠ 0 := by
  have huk : userName ∈ st.users.keys :=
    List.mem_map.2 ⟨(userName, userMap), UMap.mem_of_find hu, rfl⟩
  have hsums : _getMaxK_sums st userName (finQueue retained) =
      .ok (fin (upF r retained), fin (doF retained)) := by
    unfold _getMaxK_sums
    rw [_getMaxK_sums_fin st userName userMap hu r _ 0 0 hrat, zero_add, zero_add]
  refine ⟨?_, ?_⟩
  · rw [predictMovieScoreForUser_of_mem sqrt st movieName userName k huk hm]
    unfold _getMaxK
    rw [hret]
    simp only [bind, Except.bind, hsums, pure, Except.pure]
  · intro t ht h0
    obtain ⟨v, hv, hne⟩ := _getMaxK_select_rated sqrt st movieName userName userMap hu k _
      hret (t.1, fin t.2) (List.mem_map.2 ⟨t, ht, rfl⟩)
    rw [hrat t ht] at hv
    cases hv
    simp [ne_fin_fin, h0] at hne

end WeightedAverage

section Bounds

variable {F : Type} [LinearOrderedField F]

open Dbl (fin pinf ninf nan)

/-- C20 (amended): over exact arithmetic, for an existing user and an existing movie, when
the first loop of `_getMaxK` retains movies whose similarities are numbers and whose ratings
in the row of the user are numbers, if every retained similarity is non-negative and their
sum is positive, then `predictMovieScoreForUser` returns a number that lies between any two
bounds of the ratings of the retained movies, hence between any two bounds of the
non-sentinel ratings of the row. -/
theorem predictMovieScoreForUser_between (sqrt : F → F) (st : State F)
    (movieName userName : String) (userMap : UMap (Dbl F))
    (hu : st.users.find userName = some userMap) (hm : movieName ∈ st.movies.keys)
    (r : String → F) (k : Int) (retained : List (String × F))
    (hret : _getMaxK_select sqrt st movieName userName k = .ok (finQueue retained))
    (hrat : ∀ t ∈ retained, userMap.find t.1 = some (fin (r t.1)))
    (hnonneg : ∀ t ∈ retained, 0 ≤ t.2) (hpos : 0 < doF retained) :
    ∃ x : F, predictMovieScoreForUser sqrt st movieName userName k = .ok (fin x) ∧
      (∀ lo hi : F, (∀ t ∈ retained, lo ≤ r t.1 ∧ r t.1 ≤ hi) → lo ≤ x ∧ x ≤ hi) ∧
      (∀ lo hi : F, (∀ p ∈ userMap, ∀ v : F, p.2 = fin v → v ≠ 0 → lo ≤ v ∧ v ≤ hi) →
        lo ≤ x ∧ x ≤ hi) := by
  obtain ⟨hval, hrated⟩ :=
    predict_of_retained sqrt st movieName userName userMap hu hm r k retained hret hrat
  rw [fin_div_fin _ _ hpos.ne'] at hval
  have hbound : ∀ lo hi : F, (∀ t ∈ retained, lo ≤ r t.1 ∧ r t.1 ≤ hi) →
      lo ≤ upF r retained / doF retained ∧ upF r retained / doF retained ≤ hi := by
    intro lo hi h
    constructor
    · rw [le_div_iff₀ hpos]
      exact lower_mul_doF_le r lo retained hnonneg (fun t ht => (h t ht).1)
    · rw [div_le_iff₀ hpos]
      exact upF_le_upper_mul r hi retained hnonneg (fun t ht => (h t ht).2)
  refine ⟨_, hval, hbound, ?_⟩
  intro lo hi h
  apply hbound
  intro t ht
  exact h (t.1, fin (r t.1)) (UMap.mem_of_find (hrat t ht)) (r t.1) rfl (hrated t ht)

/-- C12 (amended): over exact arithmetic, for an existing user and an existing movie, when
the first loop of `_getMaxK` retains movies whose similarities are numbers and whose ratings
in the row of the user are numbers, if every retained similarity is non-negative, their sum
is positive and every retained rating is greater than `-1`, then `predictMovieScoreForUser`
returns a number different from the value `-1` of the not-found case. -/
theorem predictMovieScoreForUser_ne_not_found (sqrt : F → F) (st : State F)
    (movieName userName : String) (userMap : UMap (Dbl F))
    (hu : st.users.find userName = some userMap) (hm : movieName ∈ st.movies.keys)
    (r : String → F) (k : Int) (retained : List (String × F))
    (hret : _getMaxK_select sqrt st movieName userName k = .ok (finQueue retained))
    (hrat : ∀ t ∈ retained, userMap.find t.1 = some (fin (r t.1)))
    (hnonneg : ∀ t ∈ retained, 0 ≤ t.2) (hpos : 0 < doF retained)
    (hgt : ∀ t ∈ retained, -1 < r t.1) :
    ∃ x : F, predictMovieScoreForUser sqrt st movieName userName k = .ok (fin x) ∧
      x ≠ -1 := by
  obtain ⟨hval, _⟩ :=
    predict_of_retained sqrt st movieName userName userMap hu hm r k retained hret hrat
  rw [fin_div_fin _ _ hpos.ne'] at hval
  refine ⟨_, hval, ?_⟩
  have h := lower_mul_doF_lt r (-1) retained hnonneg hgt hpos
  have : -1 < upF r retained / doF retained := by
    rw [lt_div_iff₀ hpos]
    exact h
  exact this.ne'

end Bounds

section BoundsExamples

open Dbl (fin pinf ninf nan)

theorem example_select_finQueue :
    _getMaxK_select Real.sqrt (exampleState ℝ) "C" "u2" 2 =
      .ok (finQueue [("A", 1 / Real.sqrt 2), ("B", 1 / Real.sqrt 2)]) :=
  example_select

theorem example_retained_nonneg :
    ∀ t ∈ ([("A", 1 / Real.sqrt 2), ("B", 1 / Real.sqrt 2)] : List (String × ℝ)),
      0 ≤ t.2 := by
  intro t ht
  simp only [List.mem_cons, List.mem_singleton, List.not_mem_nil, or_false] at ht
  rcases ht with ht | ht <;> subst ht <;> positivity

theorem example_retained_pos :
    0 < doF ([("A", 1 / Real.sqrt 2), ("B", 1 / Real.sqrt 2)] : List (String × ℝ)) := by
  have : (0 : ℝ) < Real.sqrt 2 := Real.sqrt_pos.2 (by norm_num)
  simp only [doF, List.map_cons, List.map_nil, List.sum_cons, List.sum_nil]
  positivity

theorem example_retained_ratings :
    ∀ t ∈ ([("A", 1 / Real.sqrt 2), ("B", 1 / Real.sqrt 2)] : List (String × ℝ)),
      UMap.find ([("A", fin 4), ("B", fin 2), ("C", fin 0)] : UMap (Dbl ℝ)) t.1 =
        some (fin ((fun m => if m = "A" then (4 : ℝ) else if m = "B" then 2 else 0) t.1)) := by
  intro t ht
  simp only [List.mem_cons, List.mem_singleton, List.not_mem_nil, or_false] at ht
  rcases ht with ht | ht <;> subst ht <;> simp [UMap.find]

theorem example_movie_C : "C" ∈ (exampleState ℝ).movies.keys := by
  simp [exampleState, exampleStateOn, exampleCatalog, UMap.keys]

/-- Witness of C20 (amended): the prediction for movie `C` and user `u2` of the example with `k = 2`
lies between the bounds of the ratings of `u2`. -/
theorem predictMovieScoreForUser_between_witness :
    ∃ x : ℝ, predictMovieScoreForUser Real.sqrt (exampleState ℝ) "C" "u2" 2 = .ok (fin x) ∧
      (∀ lo hi : ℝ, (∀ t ∈ ([("A", 1 / Real.sqrt 2), ("B", 1 / Real.sqrt 2)] :
          List (String × ℝ)),
        lo ≤ (fun m => if m = "A" then (4 : ℝ) else if m = "B" then 2 else 0) t.1 ∧
          (fun m => if m = "A" then (4 : ℝ) else if m = "B" then 2 else 0) t.1 ≤ hi) →
        lo ≤ x ∧ x ≤ hi) ∧
      (∀ lo hi : ℝ, (∀ p ∈ ([("A", fin 4), ("B", fin 2), ("C", fin 0)] : UMap (Dbl ℝ)),
        ∀ v : ℝ, p.2 = fin v → v ≠ 0 → lo ≤ v ∧ v ≤ hi) → lo ≤ x ∧ x ≤ hi) :=
  predictMovieScoreForUser_between Real.sqrt (exampleState ℝ) "C" "u2" _
    (example_find_u2 ℝ) example_movie_C
    (fun m => if m = "A" then 4 else if m = "B" then 2 else 0) 2 _ example_select_finQueue
    example_retained_ratings example_retained_nonneg example_retained_pos

/-- Witness of C12 (amended): the prediction for movie `C` and user `u2` of the example with
`k = 2` is not `-1`. -/
theorem predictMovieScoreForUser_ne_not_found_witness :
    ∃ x : ℝ, predictMovieScoreForUser Real.sqrt (exampleState ℝ) "C" "u2" 2 = .ok (fin x) ∧
      x ≠ -1 :=
  predictMovieScoreForUser_ne_not_found Real.sqrt (exampleState ℝ) "C" "u2" _
    (example_find_u2 ℝ) example_movie_C
    (fun m => if m = "A" then 4 else if m = "B" then 2 else 0) 2 _ example_select_finQueue
    example_retained_ratings example_retained_nonneg example_retained_pos
    (by
      intro t ht
      simp only [List.mem_cons, List.mem_singleton, List.not_mem_nil, or_false] at ht
      rcases ht with ht | ht <;> subst ht <;> simp <;> norm_num)

end BoundsExamples

section OrderExamples

open Dbl (fin pinf ninf nan)

end OrderExamples

section Centering

variable {F : Type} [LinearOrderedField F]

open Dbl (fin pinf ninf nan)

theorem _getNormOfVec_unfold (userMap : UMap (Dbl F)) :
    _getNormOfVec userMap = userMap.map (fun movie =>
      if Dbl.ne movie.2 (fin 0) then
        (movie.1, movie.2 - (_getNormOfVec_sums userMap).2 / (_getNormOfVec_sums userMap).1)
      else movie) := rfl

end Centering

section PreferenceVector

variable {F : Type} [LinearOrderedField F]

open Dbl (fin pinf ninf nan)

end PreferenceVector

section PreferenceClaims

variable {F : Type} [LinearOrderedField F]

open Dbl (fin pinf ninf nan)

end PreferenceClaims

section ZeroPreference

variable {F : Type} [LinearOrderedField F]

open Dbl (fin pinf ninf nan)

theorem foldlM_fixed {α β : Type} (f : β → α → Except Err β) (b : β) :
    ∀ (l : List α), (∀ a ∈ l, f b a = .ok b) → l.foldlM f b = .ok b := by
  intro l
  induction l with
  | nil => intro _; rfl
  | cons a l ih =>
    intro h
    rw [List.foldlM_cons, h a (List.mem_cons_self _ _)]
    exact ih (fun x hx => h x (List.mem_cons_of_mem _ hx))

theorem eq_fin_zero_of_eq {v : Dbl F} (h : Dbl.eq v (fin 0) = true) : v = fin 0 := by
  cases v with
  | fin a => simpa [eq_fin_fin] using h
  | pinf => simp [Dbl.eq] at h
  | ninf => simp [Dbl.eq] at h
  | nan => simp [Dbl.eq] at h

/-- With a row whose ratings all compare equal to `0`, `_getPrefVec` adds nothing: the
preference vector is the all-zero vector of length `numOfAtr`. -/
theorem _getPrefVec_zero (st : State F) (normMap : UMap (Dbl F))
    (h : ∀ p ∈ normMap, Dbl.eq p.2 (fin 0) = true) :
    _getPrefVec st normMap = .ok (List.replicate st.numOfAtr (fin 0)) := by
  unfold _getPrefVec
  apply foldlM_fixed
  intro movie _
  have ha : (normMap.find movie.1).getD (fin 0) = fin 0 := by
    cases hf : normMap.find movie.1 with
    | none => rfl
    | some v => exact eq_fin_zero_of_eq (h _ (UMap.mem_of_find hf))
  simp [ha, ne_fin_fin, pure, Except.pure]

theorem dot_replicate_zero (n : Nat) (v : List F) : dot n (List.replicate n 0) v = 0 := by
  unfold dot
  apply Finset.sum_eq_zero
  intro i hi
  have : (List.replicate n (0 : F)).getD i 0 = 0 := by
    have hlt : i < n := Finset.mem_range.1 hi
    simp [List.getD_eq_getElem?_getD, List.getElem?_replicate, hlt]
  rw [this, zero_mul]

/-- With a square root that maps `0` to `0`, the norm of the all-zero preference vector is
`0`, the denominator of the score of every vector of numbers is `0`, and the score is
`0 / 0 = NaN`. -/
theorem _getMovieScore_zero_pref (sqrt : F → F) (h0 : sqrt 0 = 0) (n : Nat) (v : List F)
    (hv : n ≤ v.length) :
    _vectorNorm sqrt n (List.replicate n (fin 0)) = .ok (fin 0) ∧
      _vectorNorm sqrt n (v.map fin) = .ok (fin (sqrt (dot n v v))) ∧
      (fin 0 * fin (sqrt (dot n v v)) : Dbl F) = fin 0 ∧
      _getMovieScore sqrt n (List.replicate n (fin 0)) (v.map fin) = .ok nan := by
  have hz : List.replicate n (fin (0 : F)) = (List.replicate n (0 : F)).map fin := by simp
  have hlen : n ≤ (List.replicate n (0 : F)).length := by simp
  refine ⟨?_, _vectorNorm_fin sqrt n v hv, by simp [fin_mul_fin], ?_⟩
  · rw [hz, _vectorNorm_fin sqrt n _ hlen, dot_replicate_zero, h0]
  · rw [hz, _getMovieScore_fin sqrt n _ v hlen hv, dot_replicate_zero, dot_replicate_zero, h0,
      zero_mul, fin_zero_div_zero]

end ZeroPreference

section Undefined

variable {F : Type} [LinearOrderedField F]

open Dbl (fin pinf ninf nan)

theorem ne_false_of_eq {v : Dbl F} (h : Dbl.eq v (fin 0) = true) :
    Dbl.ne v (fin 0) = false := by
  simp [Dbl.ne, h]

theorem _getNormOfVec_sums_unrated (userMap : UMap (Dbl F))
    (hall : ∀ p ∈ userMap, Dbl.eq p.2 (fin 0) = true) :
    _getNormOfVec_sums userMap = (fin 0, fin 0) := by
  unfold _getNormOfVec_sums
  generalize (fin (0 : F), fin (0 : F)) = acc
  induction userMap generalizing acc with
  | nil => rfl
  | cons p rest ih =>
    rw [List.foldl_cons, ne_false_of_eq (hall p (List.mem_cons_self _ _))]
    exact ih (fun x hx => hall x (List.mem_cons_of_mem _ hx)) acc

theorem _getNormOfVec_unrated (userMap : UMap (Dbl F))
    (hall : ∀ p ∈ userMap, Dbl.eq p.2 (fin 0) = true) : _getNormOfVec userMap = userMap := by
  rw [_getNormOfVec_unfold]
  conv_rhs => rw [← List.map_id userMap]
  apply List.map_congr_left
  intro p hp
  simp [ne_false_of_eq (hall p hp)]

/-- C14 (amended): let every rating of the row of an existing user compare equal to the
sentinel `0`, the row have an entry for every movie of the header, every movie of the header
be in the catalog with a vector of at least `numOfAtr` numbers, and the square root map `0`
to `0`.  Then `_getNormOfVec` counts no rating and sums to `0`, the mean `0 / 0` is NaN, the
row is left as it is, every score is NaN, and `recommendByContent` returns the empty name;
no error is reported. -/
theorem recommendByContent_unrated (sqrt : F → F) (h0 : sqrt 0 = 0) (st : State F)
    (userName : String) (userMap : UMap (Dbl F))
    (hu : st.users.find userName = some userMap)
    (hall : ∀ p ∈ userMap, Dbl.eq p.2 (fin 0) = true)
    (hrow : ∀ m ∈ st.moviesNames, m ∈ userMap.keys)
    (hcat : ∀ m ∈ st.moviesNames, ∃ v : List F,
      st.movies.find m = some (v.map fin) ∧ st.numOfAtr ≤ v.length) :
    _getNormOfVec_sums userMap = (fin 0, fin 0) ∧
      ((_getNormOfVec_sums userMap).2 / (_getNormOfVec_sums userMap).1 : Dbl F) = nan ∧
      _getNormOfVec userMap = userMap ∧
      recommendByContent sqrt st userName = .ok "" := by
  have hsums := _getNormOfVec_sums_unrated userMap hall
  refine ⟨hsums, by rw [hsums]; exact fin_zero_div_zero, _getNormOfVec_unrated userMap hall,
    ?_⟩
  have hloop : st.moviesNames.foldlM
      (_getMaxSimilarityMov_step sqrt st userMap (List.replicate st.numOfAtr (fin 0)))
      ("", fin (-Dbl.DBL_MAX)) = .ok ("", fin (-Dbl.DBL_MAX)) := by
    apply foldlM_fixed
    intro m hm
    obtain ⟨v, hfind, hlen⟩ := hcat m hm
    cases hf : userMap.find m with
    | none => exact absurd (hrow m hm) ((UMap.find_eq_none_iff _ _).1 hf)
    | some r =>
      have hr : Dbl.eq r (fin 0) = true := hall _ (UMap.mem_of_find hf)
      have hscore := (_getMovieScore_zero_pref sqrt h0 st.numOfAtr v hlen).2.2.2
      simp [_getMaxSimilarityMov_step, atKey_of_find hf, atKey_of_find hfind, hr, hscore,
        Dbl.gt, bind, Except.bind, pure, Except.pure]
  simp only [recommendByContent, hu, atKey_of_find hu, bind, Except.bind,
    _getNormOfVec_unrated userMap hall, _getPrefVec_zero st userMap hall,
    _getMaxSimilarityMov, hloop, pure, Except.pure]

/-- C13 (amended): when every catalog movie has in the row of an existing user a rating that
compares equal to the sentinel `0`, for every existing movie and every `k` the first loop of
`_getMaxK` retains nothing and `predictMovieScoreForUser` returns the quotient `0 / 0`, the
value NaN, without reporting an error.  For every `k`, whenever the first loop retains
movies with numeric similarities and ratings and the similarities sum to `0`, it returns the
quotient of the weighted sum by `0`, which is NaN or an infinity. -/
theorem predictMovieScoreForUser_undefined (sqrt : F → F) (st : State F)
    (movieName userName : String) (userMap : UMap (Dbl F))
    (hu : st.users.find userName = some userMap) (hm : movieName ∈ st.movies.keys) :
    ((∀ e ∈ st.movies, ∃ v, userMap.find e.1 = some v ∧ Dbl.eq v (fin 0) = true) →
      ∀ k : Int, _getMaxK_select sqrt st movieName userName k = .ok [] ∧
        predictMovieScoreForUser sqrt st movieName userName k = .ok (fin 0 / fin 0) ∧
        predictMovieScoreForUser sqrt st movieName userName k = .ok nan) ∧
    (∀ (r : String → F) (k : Int) (retained : List (String × F)),
      _getMaxK_select sqrt st movieName userName k = .ok (finQueue retained) →
      (∀ t ∈ retained, userMap.find t.1 = some (fin (r t.1))) →
      doF retained = 0 →
      ∃ d, predictMovieScoreForUser sqrt st movieName userName k = .ok d ∧
        d = fin (upF r retained) / fin 0 ∧ (d = nan ∨ d = pinf ∨ d = ninf)) := by
  have hpred : ∀ k, predictMovieScoreForUser sqrt st movieName userName k =
      _getMaxK sqrt st movieName userName k := by
    intro k
    have huk : userName ∈ st.users.keys := by
      by_contra hc
      rw [(UMap.find_eq_none_iff _ _).2 hc] at hu
      cases hu
    exact predictMovieScoreForUser_of_mem sqrt st movieName userName k huk hm
  refine ⟨?_, ?_⟩
  · intro hall k
    have hsel : _getMaxK_select sqrt st movieName userName k = .ok [] := by
      unfold _getMaxK_select
      apply foldlM_fixed
      intro e he
      obtain ⟨v, hv, hv0⟩ := hall e he
      simp [_getMaxK_step, atKey_of_find hu, atKey_of_find hv, ne_false_of_eq hv0, bind,
        Except.bind, pure, Except.pure]
    have hval : _getMaxK sqrt st movieName userName k = .ok (fin 0 / fin 0) := by
      simp only [_getMaxK, hsel, _getMaxK_sums, List.foldlM_nil, bind, Except.bind, pure,
        Except.pure]
    refine ⟨hsel, ?_, ?_⟩
    · rw [hpred, hval]
    · rw [hpred, hval, fin_zero_div_zero]
  · intro r k q hret hrat hzero
    obtain ⟨hval, _⟩ :=
      predict_of_retained sqrt st movieName userName userMap hu hm r k q hret hrat
    refine ⟨_, hval, by rw [hzero], ?_⟩
    rw [hzero]
    show Dbl.div (fin (upF r q)) (fin 0) = nan ∨ Dbl.div (fin (upF r q)) (fin 0) = pinf ∨
      Dbl.div (fin (upF r q)) (fin 0) = ninf
    by_cases hup : upF r q = 0
    · left
      simp [Dbl.div, hup]
    · by_cases hneg : upF r q < 0
      · right; right
        simp [Dbl.div, hup, Dbl.inf, hneg]
      · right; left
        simp [Dbl.div, hup, Dbl.inf, hneg]

end Undefined

section UndefinedExamples

open Dbl (fin pinf ninf nan)

theorem unratedState_loaded (F : Type) [LinearOrderedField F] : Loaded (unratedState F) :=
  ⟨exampleStod F, unratedLines,
    { unratedState F with users := [], moviesNames := [] }, rfl, rfl, rfl⟩

theorem unrated_find (F : Type) [LinearOrderedField F] :
    (unratedState F).users.find "u0" = some [("A", fin 0), ("B", fin 0), ("C", fin 0)] := rfl

theorem unrated_all_zero :
    ∀ p ∈ ([("A", fin 0), ("B", fin 0), ("C", fin 0)] : UMap (Dbl ℝ)),
      Dbl.eq p.2 (fin 0) = true := by
  intro p hp
  simp only [List.mem_cons, List.mem_singleton, List.not_mem_nil, or_false] at hp
  rcases hp with hp | hp | hp <;> subst hp <;> simp [eq_fin_fin]

theorem unrated_score (v : List ℝ) (hv : 2 ≤ v.length) :
    _getMovieScore Real.sqrt 2 [fin 0, fin 0] (v.map fin) = .ok nan :=
  (_getMovieScore_zero_pref Real.sqrt Real.sqrt_zero 2 v hv).2.2.2

/-- C13, the counterexample: user `u0` of the loaded state `unratedState` has rated no movie;
for the existing movie `A` and `k = 1` nothing is retained and `predictMovieScoreForUser`
returns the quotient `0 / 0`, the value NaN, and no error. -/
theorem predictMovieScoreForUser_returns_nan :
    Loaded (unratedState ℝ) ∧
      (unratedState ℝ).users.find "u0" =
        some [("A", fin 0), ("B", fin 0), ("C", fin 0)] ∧
      "A" ∈ (unratedState ℝ).movies.keys ∧
      _getMaxK_select Real.sqrt (unratedState ℝ) "A" "u0" 1 = .ok [] ∧
      predictMovieScoreForUser Real.sqrt (unratedState ℝ) "A" "u0" 1 =
        .ok (fin 0 / fin 0) ∧
      (fin 0 / fin 0 : Dbl ℝ) = nan := by
  have hsel : _getMaxK_select Real.sqrt (unratedState ℝ) "A" "u0" 1 = .ok [] := by
    simp [_getMaxK_select, _getMaxK_step, unratedState, exampleCatalog, UMap.atKey,
      UMap.find, ne_fin_fin, bind, Except.bind, pure, Except.pure]
  have hm : (unratedState ℝ).movies.find "A" = some [fin 1, fin 0] := rfl
  refine ⟨unratedState_loaded ℝ, rfl, by simp [unratedState, exampleCatalog, UMap.keys],
    hsel, ?_, fin_zero_div_zero⟩
  simp only [predictMovieScoreForUser, unrated_find, hm, _getMaxK, hsel, _getMaxK_sums,
    List.foldlM_nil, bind, Except.bind, pure, Except.pure]

/-- Witness of C13 (amended): user `u0`, movie `A` and `k = 1`. -/
theorem predictMovieScoreForUser_undefined_witness :
    _getMaxK_select Real.sqrt (unratedState ℝ) "A" "u0" 1 = .ok [] ∧
      predictMovieScoreForUser Real.sqrt (unratedState ℝ) "A" "u0" 1 =
        .ok (fin 0 / fin 0) ∧
      predictMovieScoreForUser Real.sqrt (unratedState ℝ) "A" "u0" 1 = .ok nan :=
  (predictMovieScoreForUser_undefined Real.sqrt (unratedState ℝ) "A" "u0" _
    (unrated_find ℝ) (by simp [unratedState, exampleCatalog, UMap.keys])).1
    (by
      intro e he
      simp only [unratedState, exampleCatalog, List.mem_cons, List.mem_singleton,
        List.not_mem_nil, or_false] at he
      rcases he with he | he | he <;> subst he <;> simp [UMap.find, eq_fin_fin])
    1

/-- C14, the counterexample: user `u0` of the loaded state `unratedState` has rated no movie;
`_getNormOfVec` divides the sum `0` by the count `0`, and `recommendByContent` goes on and
returns the empty name, not an error. -/
theorem recommendByContent_returns_empty :
    Loaded (unratedState ℝ) ∧
      (unratedState ℝ).users.find "u0" =
        some [("A", fin 0), ("B", fin 0), ("C", fin 0)] ∧
      _getNormOfVec_sums ([("A", fin 0), ("B", fin 0), ("C", fin 0)] : UMap (Dbl ℝ)) =
        (fin 0, fin 0) ∧
      recommendByContent Real.sqrt (unratedState ℝ) "u0" = .ok "" := by
  have hsums : _getNormOfVec_sums ([("A", fin 0), ("B", fin 0), ("C", fin 0)] :
      UMap (Dbl ℝ)) = (fin 0, fin 0) := by
    simp [_getNormOfVec_sums, ne_fin_fin]
  have hnorm : _getNormOfVec ([("A", fin 0), ("B", fin 0), ("C", fin 0)] : UMap (Dbl ℝ)) =
      [("A", fin 0), ("B", fin 0), ("C", fin 0)] := by
    simp [_getNormOfVec, ne_fin_fin]
  have hpref : _getPrefVec (unratedState ℝ) [("A", fin 0), ("B", fin 0), ("C", fin 0)] =
      .ok [fin 0, fin 0] := by
    simp [_getPrefVec, unratedState, exampleCatalog, UMap.find, ne_fin_fin, pure,
      Except.pure, bind, Except.bind]
  have hA := unrated_score [1, 0] (le_refl 2)
  have hB := unrated_score [0, 1] (le_refl 2)
  have hC := unrated_score [1, 1] (le_refl 2)
  simp only [List.map] at hA hB hC
  refine ⟨unratedState_loaded ℝ, rfl, hsums, ?_⟩
  simp only [recommendByContent, unrated_find, atKey_of_find (unrated_find ℝ), bind,
    Except.bind, hnorm, hpref]
  simp [_getMaxSimilarityMov, _getMaxSimilarityMov_step, unratedState, exampleCatalog,
    UMap.atKey, UMap.find, eq_fin_fin, hA, hB, hC, Dbl.gt, bind, Except.bind, pure,
    Except.pure]

/-- Witness of C14 (amended): user `u0` of `unratedState`. -/
theorem recommendByContent_unrated_witness :
    _getNormOfVec_sums ([("A", fin 0), ("B", fin 0), ("C", fin 0)] : UMap (Dbl ℝ)) =
        (fin 0, fin 0) ∧
      ((_getNormOfVec_sums ([("A", fin 0), ("B", fin 0), ("C", fin 0)] : UMap (Dbl ℝ))).2 /
        (_getNormOfVec_sums ([("A", fin 0), ("B", fin 0), ("C", fin 0)] :
          UMap (Dbl ℝ))).1 : Dbl ℝ) = nan ∧
      _getNormOfVec ([("A", fin 0), ("B", fin 0), ("C", fin 0)] : UMap (Dbl ℝ)) =
        [("A", fin 0), ("B", fin 0), ("C", fin 0)] ∧
      recommendByContent Real.sqrt (unratedState ℝ) "u0" = .ok "" :=
  recommendByContent_unrated Real.sqrt Real.sqrt_zero (unratedState ℝ) "u0" _
    (unrated_find ℝ) unrated_all_zero
    (by simp [unratedState, UMap.keys])
    (by
      intro m hm
      simp only [unratedState, List.mem_cons, List.mem_singleton, List.not_mem_nil,
        or_false] at hm
      rcases hm with hm | hm | hm
      · subst hm
        exact ⟨[1, 0], rfl, le_refl 2⟩
      · subst hm
        exact ⟨[0, 1], rfl, le_refl 2⟩
      · subst hm
        exact ⟨[1, 1], rfl, le_refl 2⟩)

end UndefinedExamples

section AttrLoader

variable {F : Type} [LinearOrderedField F]

open Dbl (fin pinf ninf nan)

theorem keys_assign_of_not_mem {V : Type} (m : UMap V) (key : String) (v : V)
    (h : key ∉ m.keys) : (m.assign key v).keys = m.keys ++ [key] := by
  induction m with
  | nil => rfl
  | cons p rest ih =>
    obtain ⟨k, w⟩ := p
    simp only [UMap.keys, List.map_cons, List.mem_cons, not_or] at h
    have hk : ¬ k = key := fun hk => h.1 hk.symm
    simp only [UMap.assign, hk, if_false, UMap.keys, List.map_cons, List.cons_append]
    exact congrArg _ (ih h.2)

theorem keys_assign_of_mem {V : Type} (m : UMap V) (key : String) (v : V)
    (h : key ∈ m.keys) : (m.assign key v).keys = m.keys := by
  induction m with
  | nil => cases h
  | cons p rest ih =>
    obtain ⟨k, w⟩ := p
    by_cases hk : k = key
    · simp [UMap.assign, UMap.keys, hk]
    · simp only [UMap.keys, List.map_cons, List.mem_cons] at h
      have h' : key ∈ UMap.keys rest := by
        rcases h with h | h
        · exact absurd h.symm hk
        · exact h
      simp only [UMap.assign, hk, if_false, UMap.keys, List.map_cons]
      exact congrArg _ (ih h')

theorem mem_assign_self {V : Type} (m : UMap V) (key : String) (v : V) :
    (key, v) ∈ m.assign key v := by
  induction m with
  | nil => simp [UMap.assign]
  | cons p rest ih =>
    obtain ⟨k, w⟩ := p
    by_cases hk : k = key
    · simp [UMap.assign, hk]
    · simp only [UMap.assign, hk, if_false]
      exact List.mem_cons_of_mem _ ih

theorem mem_assign_other {V : Type} {m : UMap V} {key : String} {v : V} {p : String × V}
    (h : p ∈ m.assign key v) (hp : p.1 ≠ key) : p ∈ m := by
  rcases UMap.mem_assign h with h | h
  · exact h
  · rw [h] at hp
    exact absurd rfl hp

theorem mem_of_find_key {V : Type} {m : UMap V} {key : String} {v : V}
    (h : m.find key = some v) : key ∈ m.keys :=
  List.mem_map.2 ⟨(key, v), UMap.mem_of_find h, rfl⟩

/-- The effect of `movies[key].push_back(val)` on a catalog with distinct keys: the keys stay
distinct, the other entries keep their vectors, and the vector of `key` grows by one. -/
theorem pushAttr_spec (order : UMap (List (Dbl F)) → UMap (List (Dbl F)))
    (horder : ∀ m, (order m).Perm m) (c : Nat) (movies : UMap (List (Dbl F)))
    (key : String) (val : Int) (j : Nat)
    (hnd : movies.keys.Nodup) (hother : ∀ p ∈ movies, p.1 ≠ key → p.2.length = c)
    (hkey : (j = 0 ∧ key ∉ movies.keys) ∨
      (0 < j ∧ ∃ vec, movies.find key = some vec ∧ vec.length = j)) :
    (pushAttr order movies key val).keys.Nodup ∧
      (∀ p ∈ pushAttr order movies key val, p.1 ≠ key → p.2.length = c) ∧
      (∀ k, k ∈ (pushAttr order movies key val).keys ↔ k = key ∨ k ∈ movies.keys) ∧
      ∃ vec, (pushAttr order movies key val).find key = some vec ∧ vec.length = j + 1 := by
  unfold pushAttr
  rcases hkey with ⟨hj, hnot⟩ | ⟨_, vec, hfind, hlen⟩
  · rw [(UMap.find_eq_none_iff _ _).2 hnot]
    have hk1 : (movies.assign key [fin (val : F)]).keys.Nodup := by
      rw [keys_assign_of_not_mem _ _ _ hnot]
      exact List.nodup_append.2 ⟨hnd, List.nodup_singleton _, by
        intro a ha hb
        rw [List.mem_singleton.1 hb] at ha
        exact hnot ha⟩
    have hp := horder (movies.assign key [fin (val : F)])
    have hk2 : (order (movies.assign key [fin (val : F)])).keys.Nodup :=
      ((List.Perm.map Prod.fst hp).nodup_iff).2 hk1
    refine ⟨hk2, ?_, ?_, [fin (val : F)], ?_, by simp [hj]⟩
    · intro p hp' hpk
      exact hother p (mem_assign_other (hp.subset hp') hpk) hpk
    · intro k
      have h1 : k ∈ (order (movies.assign key [fin (val : F)])).keys ↔
          k ∈ (movies.assign key [fin (val : F)]).keys :=
        (List.Perm.map Prod.fst hp).mem_iff
      have h2 : k ∈ (movies.assign key [fin (val : F)]).keys ↔ k = key ∨ k ∈ movies.keys := by
        rw [keys_assign_of_not_mem _ _ _ hnot]
        simp [or_comm]
      exact h1.trans h2
    · exact find_of_mem_nodup hk2 (hp.symm.subset (mem_assign_self _ _ _))
  · simp only [hfind]
    have hmem : key ∈ movies.keys := mem_of_find_key hfind
    have hk1 : (movies.assign key (vec ++ [fin (val : F)])).keys.Nodup := by
      rw [keys_assign_of_mem _ _ _ hmem]
      exact hnd
    refine ⟨hk1, ?_, ?_, vec ++ [fin (val : F)], ?_, by simp [hlen]⟩
    · intro p hp' hpk
      exact hother p (mem_assign_other hp' hpk) hpk
    · intro k
      rw [keys_assign_of_mem _ _ _ hmem]
      constructor
      · exact fun h => Or.inr h
      · rintro (h | h)
        · rw [h]
          exact hmem
        · exact h
    · exact find_of_mem_nodup hk1 (mem_assign_self _ _ _)

/-- The pushes of one line with a new name on a uniform catalog. -/
theorem pushAttr_foldl (order : UMap (List (Dbl F)) → UMap (List (Dbl F)))
    (horder : ∀ m, (order m).Perm m) (c : Nat) (key : String) :
    ∀ (vals : List Int) (movies : UMap (List (Dbl F))) (j : Nat),
      movies.keys.Nodup → (∀ p ∈ movies, p.1 ≠ key → p.2.length = c) →
      ((j = 0 ∧ key ∉ movies.keys) ∨
        (0 < j ∧ ∃ vec, movies.find key = some vec ∧ vec.length = j)) →
      0 < j + vals.length →
      (vals.foldl (fun movies val => pushAttr order movies key val) movies).keys.Nodup ∧
      (∀ p ∈ vals.foldl (fun movies val => pushAttr order movies key val) movies,
        p.1 ≠ key → p.2.length = c) ∧
      (∀ k, k ∈ (vals.foldl (fun movies val => pushAttr order movies key val) movies).keys ↔
        k = key ∨ k ∈ movies.keys) ∧
      ∃ vec, (vals.foldl (fun movies val => pushAttr order movies key val) movies).find key =
        some vec ∧ vec.length = j + vals.length := by
  intro vals
  induction vals with
  | nil =>
    intro movies j hnd hother hkey hpos
    rcases hkey with ⟨hj, _⟩ | ⟨_, vec, hfind, hlen⟩
    · simp [hj] at hpos
    · refine ⟨hnd, hother, ?_, vec, hfind, by simp [hlen]⟩
      intro k
      constructor
      · exact fun h => Or.inr h
      · rintro (h | h)
        · rw [h]
          exact mem_of_find_key hfind
        · exact h
  | cons val vals ih =>
    intro movies j hnd hother hkey _
    obtain ⟨h1, h2, hk, vec, h3, h4⟩ :=
      pushAttr_spec order horder c movies key val j hnd hother hkey
    obtain ⟨g1, g2, gk, gvec, g3, g4⟩ := ih (pushAttr order movies key val) (j + 1) h1 h2
      (Or.inr ⟨Nat.succ_pos j, vec, h3, h4⟩) (by omega)
    simp only [List.foldl_cons, List.length_cons]
    refine ⟨g1, g2, ?_, gvec, g3, by omega⟩
    intro k
    rw [gk k, hk k]
    tauto

/-- One line with a new name and `c ≥ 1` attributes keeps the catalog uniform, adds the name
to its keys and sets `numOfAtr` to `c`. -/
theorem _loadMoviesAttrFile_line_uniform (order : UMap (List (Dbl F)) → UMap (List (Dbl F)))
    (horder : ∀ m, (order m).Perm m) (readInts : List String → List Int) (c : Nat)
    (hc : 1 ≤ c) (st : State F) (line : String) (hu : Uniform c st.movies)
    (hnew : lineName line ∉ st.movies.keys)
    (hcount : (readInts (tokens line).tail).length = c) :
    ∃ st', _loadMoviesAttrFile_line order readInts st line = .ok st' ∧
      Uniform c st'.movies ∧ st'.numOfAtr = c ∧
      (∀ k, k ∈ st'.movies.keys ↔ k = lineName line ∨ k ∈ st.movies.keys) := by
  obtain ⟨hnd, hall⟩ := hu
  obtain ⟨h1, h2, hk, vec, h3, h4⟩ := pushAttr_foldl order horder c (lineName line)
    (readInts (tokens line).tail) st.movies 0 hnd (fun p hp _ => hall p hp)
    (Or.inl ⟨rfl, hnew⟩) (by omega)
  have hunif : ∀ p ∈ (readInts (tokens line).tail).foldl
      (fun movies val => pushAttr order movies (lineName line) val) st.movies,
      p.2.length = c := by
    intro p hp
    by_cases hpk : p.1 = lineName line
    · obtain ⟨k, v⟩ := p
      have hkv : k = lineName line := hpk
      rw [hkv] at hp
      have := find_of_mem_nodup h1 hp
      rw [h3] at this
      cases this
      exact h4.trans (by omega)
    · exact h2 p hp hpk
  unfold _loadMoviesAttrFile_line
  simp only []
  cases hm : (readInts (tokens line).tail).foldl
      (fun movies val => pushAttr order movies (lineName line) val) st.movies with
  | nil =>
    exfalso
    have : (readInts (tokens line).tail).foldl
        (fun movies val => pushAttr order movies ((tokens line).head?.getD "") val)
        st.movies = [] := hm
    have hf : UMap.find ([] : UMap (List (Dbl F))) (lineName line) = some vec := by
      rw [← hm]
      exact h3
    cases hf
  | cons first rest =>
    have hm' : (readInts (tokens line).tail).foldl
        (fun movies val => pushAttr order movies ((tokens line).head?.getD "") val)
        st.movies = first :: rest := hm
    rw [hm'] at *
    rw [hm] at h1 hk hunif
    refine ⟨_, rfl, ⟨h1, hunif⟩, hunif first (List.mem_cons_self _ _), hk⟩

end AttrLoader

section AttrLoaderClaim

variable {F : Type} [LinearOrderedField F]

open Dbl (fin pinf ninf nan)

/-- The loop of `_loadMoviesAttrFile` over lines with new, distinct names and `c ≥ 1`
attributes each, started on a uniform catalog whose keys are `names`. -/
theorem _loadMoviesAttrFile_loop (order : UMap (List (Dbl F)) → UMap (List (Dbl F)))
    (horder : ∀ m, (order m).Perm m) (readInts : List String → List Int) (c : Nat)
    (hc : 1 ≤ c) :
    ∀ (lines : List String) (st : State F) (names : List String),
      Uniform c st.movies → (∀ k, k ∈ st.movies.keys ↔ k ∈ names) →
      (names ++ lines.map lineName).Nodup →
      (∀ line ∈ lines, (readInts (tokens line).tail).length = c) →
      ∃ st', _loadMoviesAttrFile order readInts lines st = .ok st' ∧
        Uniform c st'.movies ∧
        (∀ k, k ∈ st'.movies.keys ↔ k ∈ names ++ lines.map lineName) ∧
        (lines ≠ [] → st'.numOfAtr = c) := by
  intro lines
  induction lines with
  | nil =>
    intro st names hu hk _ _
    exact ⟨st, rfl, hu, by simpa using hk, fun h => absurd rfl h⟩
  | cons line lines ih =>
    intro st names hu hk hnd hcount
    have hnew : lineName line ∉ st.movies.keys := by
      rw [hk]
      intro hmem
      have := (List.nodup_append.1 hnd).2.2
      exact this hmem (by simp)
    obtain ⟨st1, hst1, hu1, hn1, hk1⟩ := _loadMoviesAttrFile_line_uniform order horder readInts
      c hc st line hu hnew (hcount line (List.mem_cons_self _ _))
    have hk1' : ∀ k, k ∈ st1.movies.keys ↔ k ∈ names ++ [lineName line] := by
      intro k
      rw [hk1 k, hk k]
      simp [or_comm]
    have hnd' : ((names ++ [lineName line]) ++ lines.map lineName).Nodup := by
      simpa using hnd
    obtain ⟨st2, hst2, hu2, hk2, hn2⟩ := ih st1 (names ++ [lineName line]) hu1 hk1' hnd'
      (fun l hl => hcount l (List.mem_cons_of_mem _ hl))
    refine ⟨st2, ?_, hu2, ?_, ?_⟩
    · unfold _loadMoviesAttrFile at hst2 ⊢
      rw [List.foldlM_cons, hst1]
      exact hst2
    · intro k
      rw [hk2 k]
      simp
    · intro _
      by_cases hl : lines = []
      · subst hl
        have : st2 = st1 := by
          have h := hst2
          simp only [_loadMoviesAttrFile, List.foldlM_nil, pure, Except.pure,
            Except.ok.injEq] at h
          exact h.symm
        rw [this]
        exact hn1
      · exact hn2 hl

/-- C15 (amended): let `_loadMoviesAttrFile` process, into a new object, a non-empty sequence
of lines with pairwise distinct movie names that all carry the same number `c ≥ 1` of
attributes, whatever the order in which the container enumerates its entries.  Then no line
is rejected, every line has its movie in the catalog, every movie of the catalog has an
attribute vector of length `numOfAtr`, and `numOfAtr` is `c`, the number of attributes of the
first line. -/
theorem _loadMoviesAttrFile_uniform (order : UMap (List (Dbl F)) → UMap (List (Dbl F)))
    (horder : ∀ m, (order m).Perm m) (readInts : List String → List Int) (c : Nat)
    (hc : 1 ≤ c) (lines : List String) (hne : lines ≠ [])
    (hnames : (lines.map lineName).Nodup)
    (hcount : ∀ line ∈ lines, (readInts (tokens line).tail).length = c) :
    ∃ st, _loadMoviesAttrFile order readInts lines (freshState F) = .ok st ∧
      (∀ p ∈ st.movies, p.2.length = st.numOfAtr) ∧ st.numOfAtr = c ∧
      (∀ line ∈ lines, lineName line ∈ st.movies.keys) ∧ st.movies.keys.Nodup := by
  obtain ⟨st, hst, ⟨hnd, hall⟩, hk, hn⟩ := _loadMoviesAttrFile_loop order horder readInts c hc
    lines (freshState F) [] ⟨List.nodup_nil, fun p hp => by cases hp⟩
    (fun k => by simp [freshState, UMap.keys]) (by simpa using hnames) hcount
  refine ⟨st, hst, ?_, hn hne, ?_, hnd⟩
  · intro p hp
    rw [hn hne]
    exact hall p hp
  · intro line hl
    rw [hk]
    simpa using List.mem_map.2 ⟨line, hl, rfl⟩

/-- Witness of C15 (amended): the attribute lines of the scenarios, two attributes each. -/
theorem _loadMoviesAttrFile_uniform_witness :
    ∃ st, _loadMoviesAttrFile id exampleReadInts ["A 1 0", "B 0 1", "C 1 1"]
        (freshState ℝ) = .ok st ∧
      (∀ p ∈ st.movies, p.2.length = st.numOfAtr) ∧ st.numOfAtr = 2 ∧
      (∀ line ∈ ["A 1 0", "B 0 1", "C 1 1"], lineName line ∈ st.movies.keys) ∧
      st.movies.keys.Nodup :=
  _loadMoviesAttrFile_uniform id (fun m => List.Perm.refl m) exampleReadInts 2 (by norm_num)
    ["A 1 0", "B 0 1", "C 1 1"] (by simp) (by decide) (by decide)

/-- C15, the counterexample: the second of the attribute lines `A 1 0` and `B 1` has one
attribute instead of two.  It is not rejected: `B` is stored with its single attribute.  When
the container enumerates `A` first, `numOfAtr` is `2` and the vector of `B` is shorter; when
it enumerates `B` first, `numOfAtr` is `1`, which is not the number of attributes of the first
line, and the vector of `A` is longer. -/
theorem _loadMoviesAttrFile_not_uniform :
    _loadMoviesAttrFile id exampleReadInts ["A 1 0", "B 1"] (freshState ℝ) =
        .ok (mixedState ℝ) ∧
      (mixedState ℝ).numOfAtr = 2 ∧
      (∃ p ∈ (mixedState ℝ).movies, p.1 = "B" ∧ p.2.length = 1) ∧
      (¬ ∀ p ∈ (mixedState ℝ).movies, p.2.length = (mixedState ℝ).numOfAtr) ∧
      _loadMoviesAttrFile List.reverse exampleReadInts ["A 1 0", "B 1"] (freshState ℝ) =
        .ok (mixedStateReversed ℝ) ∧
      (mixedStateReversed ℝ).numOfAtr = 1 ∧
      (∃ p ∈ (mixedStateReversed ℝ).movies, p.1 = "A" ∧ p.2.length = 2) ∧
      ¬ ∀ p ∈ (mixedStateReversed ℝ).movies,
        p.2.length = (mixedStateReversed ℝ).numOfAtr := by
  refine ⟨rfl, rfl, ⟨_, List.mem_cons_of_mem _ (List.mem_cons_self _ _), rfl, rfl⟩, ?_, rfl,
    rfl, ⟨_, List.mem_cons_of_mem _ (List.mem_cons_self _ _), rfl, rfl⟩, ?_⟩
  · intro h
    have h1 : (1 : Nat) = 2 := h _ (List.mem_cons_of_mem _ (List.mem_cons_self _ _))
    exact absurd h1 (by decide)
  · intro h
    have h1 : (2 : Nat) = 1 := h _ (List.mem_cons_of_mem _ (List.mem_cons_self _ _))
    exact absurd h1 (by decide)

end AttrLoaderClaim

section MachineArithmetic

open Dbl (fin pinf ninf nan)

theorem roundEven_eq (q : ℚ) (m : ℤ) (h : |q - m| < 1 / 2) : roundEven q = m := by
  have h1 := (abs_lt.1 h).1
  have h2 := (abs_lt.1 h).2
  unfold roundEven
  by_cases hle : (m : ℚ) ≤ q
  · have hf : ⌊q⌋ = m := Int.floor_eq_iff.2 ⟨hle, by linarith⟩
    simp only [hf]
    rw [if_pos h2]
  · have hlt : q < m := lt_of_not_le hle
    have hf : ⌊q⌋ = m - 1 :=
      Int.floor_eq_iff.2 ⟨by push_cast; linarith, by push_cast; linarith⟩
    simp only [hf]
    have h3 : ¬ (q - ((m - 1 : ℤ) : ℚ) < 1 / 2) := by push_cast; linarith
    have h4 : (1 / 2 : ℚ) < q - ((m - 1 : ℤ) : ℚ) := by push_cast; linarith
    rw [if_neg h3, if_pos h4]
    ring

theorem log_two_eq (x : ℚ) (n : ℤ) (h1 : (2 : ℚ) ^ n ≤ x) (h2 : x < 2 ^ (n + 1)) :
    Int.log 2 x = n := by
  have hpos : 0 < x := lt_of_lt_of_le (by positivity) h1
  have ha : n ≤ Int.log 2 x :=
    (Int.zpow_le_iff_le_log (by norm_num) hpos).1 (by exact_mod_cast h1)
  have hb : Int.log 2 x < n + 1 :=
    (Int.lt_zpow_iff_log_lt (by norm_num) hpos).1 (by exact_mod_cast h2)
  omega

theorem roundEven_tie_even (q : ℚ) (f : ℤ) (h : q - f = 1 / 2) (he : f % 2 = 0) :
    roundEven q = f := by
  have hf : ⌊q⌋ = f := Int.floor_eq_iff.2 ⟨by linarith, by linarith⟩
  unfold roundEven
  simp only [hf, h, lt_irrefl, if_false, he, if_true]

theorem roundEven_tie_odd (q : ℚ) (f : ℤ) (h : q - f = 1 / 2) (ho : f % 2 = 1) :
    roundEven q = f + 1 := by
  have hf : ⌊q⌋ = f := Int.floor_eq_iff.2 ⟨by linarith, by linarith⟩
  have hne : ¬ f % 2 = 0 := by omega
  unfold roundEven
  simp only [hf, h, lt_irrefl, if_false, hne]

/-- The value of `round64` on a number in the range of the normal doubles: `n` is the
binary exponent of `x` and `m` the integer that `x / 2 ^ (n - 52)` is rounded to. -/
theorem round64_eq (x : ℚ) (n m : ℤ) (h1 : (2 : ℚ) ^ n ≤ |x|) (h2 : |x| < 2 ^ (n + 1))
    (hn : -1022 ≤ n) (hn2 : n < 1023) (hm : roundEven (x / 2 ^ (n - 52)) = m)
    (hm53 : |m| ≤ 2 ^ 53) :
    round64 x = fin ((m : ℚ) * 2 ^ (n - 52)) := by
  have he : ulpExp x = n - 52 := by
    unfold ulpExp
    rw [log_two_eq |x| n h1 h2, max_eq_left hn]
  have hmax : |(m : ℚ) * 2 ^ (n - 52)| ≤ Dbl.DBL_MAX := by
    have hp : (0 : ℚ) < 2 ^ (n - 52) := by positivity
    have hm' : |(m : ℚ)| ≤ 2 ^ (53 : ℤ) := by
      have h : ((|m| : ℤ) : ℚ) ≤ ((2 ^ 53 : ℤ) : ℚ) := Int.cast_le.2 hm53
      rw [Int.cast_abs] at h
      rw [zpow_ofNat]
      exact_mod_cast h
    have hc : (1 : ℚ) ≤ 2 - 1 / 2 ^ 52 := by norm_num
    have hP : (0 : ℚ) < 2 ^ 1023 := by positivity
    calc |(m : ℚ) * 2 ^ (n - 52)| = |(m : ℚ)| * 2 ^ (n - 52) := by
          rw [abs_mul, abs_of_pos hp]
      _ ≤ 2 ^ (53 : ℤ) * 2 ^ (n - 52) := by gcongr
      _ = 2 ^ (n + 1) := by
          rw [← zpow_add₀ (by norm_num : (2 : ℚ) ≠ 0)]
          have h : (53 : ℤ) + (n - 52) = n + 1 := by omega
          rw [h]
      _ ≤ 2 ^ ((1023 : ℕ) : ℤ) := zpow_le_zpow_right₀ (by norm_num) (by push_cast; omega)
      _ = 2 ^ (1023 : ℕ) := zpow_natCast 2 1023
      _ ≤ Dbl.DBL_MAX := by
          unfold Dbl.DBL_MAX
          nlinarith
  unfold round64
  simp only [he, hm]
  rw [if_neg (not_lt.2 hmax)]

theorem round64_zero : round64 0 = fin 0 := by
  unfold round64
  have : roundEven (0 / 2 ^ ulpExp 0) = 0 := roundEven_eq _ 0 (by norm_num)
  simp only [this]
  rw [if_neg]
  · simp
  · norm_num [Dbl.DBL_MAX]

/-- The value of `sqrt64`: `n` is the binary exponent of the square root of `x`, and
`m * 2 ^ (n - 52)` is the double nearest to it. -/
theorem sqrt64_eq (x : ℚ) (n : ℤ) (m : ℕ) (h1 : (4 : ℚ) ^ n ≤ x) (h2 : x < 4 ^ (n + 1))
    (hm1 : ((2 * m - 1 : ℚ) * 2 ^ (n - 52)) ^ 2 ≤ 4 * x) (hm0 : 1 ≤ m)
    (hm2 : 4 * x < ((2 * m + 1 : ℚ) * 2 ^ (n - 52)) ^ 2) :
    sqrt64 x = m * 2 ^ (n - 52) := by
  have hpos : 0 < x := lt_of_lt_of_le (by positivity) h1
  have hlog1 : 2 * n ≤ Int.log 2 x := by
    apply (Int.zpow_le_iff_le_log (by norm_num) hpos).1
    have : ((2 : ℕ) : ℚ) ^ (2 * n) = 4 ^ n := by
      rw [zpow_mul]; norm_num
    rw [this]
    exact h1
  have hlog2 : Int.log 2 x < 2 * (n + 1) := by
    apply (Int.lt_zpow_iff_log_lt (by norm_num) hpos).1
    have : ((2 : ℕ) : ℚ) ^ (2 * (n + 1)) = 4 ^ (n + 1) := by
      rw [zpow_mul]; norm_num
    rw [this]
    exact h2
  have he : Int.log 2 x / 2 - 52 = n - 52 := by omega
  have h4 : (4 : ℚ) ^ (n - 52) = (2 ^ (n - 52)) ^ 2 := by
    rw [← zpow_natCast, ← zpow_mul, mul_comm, zpow_mul]; norm_num
  have hp : (0 : ℚ) < (2 ^ (n - 52)) ^ 2 := by positivity
  set z : ℚ := 4 * x / 4 ^ (n - 52) with hz
  have hz1 : ((2 * m - 1 : ℕ) : ℚ) ^ 2 ≤ z := by
    rw [hz, h4, le_div_iff₀ hp, ← mul_pow]
    have : ((2 * m - 1 : ℕ) : ℚ) = 2 * m - 1 := by
      rw [Nat.cast_sub (by omega)]; push_cast; ring
    rw [this]
    exact hm1
  have hz2 : z < ((2 * m + 1 : ℕ) : ℚ) ^ 2 := by
    rw [hz, h4, div_lt_iff₀ hp, ← mul_pow]
    push_cast
    exact hm2
  have hz0 : 0 ≤ z := le_trans (by positivity) hz1
  have hN1 : (2 * m - 1) * (2 * m - 1) ≤ ⌊z⌋₊ := by
    apply Nat.le_floor
    rw [Nat.cast_mul, ← sq]
    exact hz1
  have hN2 : ⌊z⌋₊ < (2 * m + 1) * (2 * m + 1) := by
    apply (Nat.floor_lt hz0).2
    rw [Nat.cast_mul, ← sq]
    exact hz2
  have ht1 : 2 * m - 1 ≤ Nat.sqrt ⌊z⌋₊ := Nat.le_sqrt.2 hN1
  have ht2 : Nat.sqrt ⌊z⌋₊ < 2 * m + 1 := Nat.sqrt_lt.2 hN2
  have ht : (Nat.sqrt ⌊z⌋₊ + 1) / 2 = m := by omega
  unfold sqrt64
  rw [if_neg (not_le.2 hpos)]
  simp only [he, ht]

theorem binary64_fin (x : ℚ) : binary64 (fin x) = round64 x := rfl

end MachineArithmetic

section RoundedEngine

variable {F : Type} [LinearOrderedField F]

open Dbl (fin pinf ninf nan)

theorem Rounded_predict_exact (sqrt : F → F) (st : State F) (movieName userName : String)
    (k : Int) :
    Rounded.predictMovieScoreForUser id sqrt st movieName userName k =
      predictMovieScoreForUser sqrt st movieName userName k := rfl

theorem Rounded_recommendByContent_exact (sqrt : F → F) (st : State F) (userName : String) :
    Rounded.recommendByContent id sqrt st userName = recommendByContent sqrt st userName :=
  rfl

theorem Rounded_getNormOfVec_exact (userMap : UMap (Dbl F)) :
    Rounded._getNormOfVec id userMap = _getNormOfVec userMap := rfl

theorem Rounded_getPrefVec_exact (st : State F) (normMap : UMap (Dbl F)) :
    Rounded._getPrefVec id st normMap = _getPrefVec st normMap := rfl

theorem Rounded_getMovieScore_exact (sqrt : F → F) (n : Nat) (prefVec featVec : List (Dbl F)) :
    Rounded._getMovieScore id sqrt n prefVec featVec = _getMovieScore sqrt n prefVec featVec :=
  rfl

theorem Rounded_scalarMulti_two (rnd : Dbl F → Dbl F) (a0 a1 b0 b1 : Dbl F) :
    Rounded._scalarMulti rnd 2 [a0, a1] [b0, b1] =
      .ok (rnd (rnd (fin 0 + rnd (a0 * b0)) + rnd (a1 * b1))) := by
  simp [Rounded._scalarMulti, idx, List.range, List.range.loop, bind, Except.bind, pure,
    Except.pure]

theorem Rounded_scalarMulti_four (rnd : Dbl F → Dbl F) (a0 a1 a2 a3 b0 b1 b2 b3 : Dbl F) :
    Rounded._scalarMulti rnd 4 [a0, a1, a2, a3] [b0, b1, b2, b3] =
      .ok (rnd (rnd (rnd (rnd (fin 0 + rnd (a0 * b0)) + rnd (a1 * b1)) + rnd (a2 * b2)) +
        rnd (a3 * b3))) := by
  simp [Rounded._scalarMulti, idx, List.range, List.range.loop, bind, Except.bind, pure,
    Except.pure]

theorem Rounded_vectorNorm_of (rnd : Dbl F → Dbl F) (sqrt : F → F) (n : Nat)
    (vec : List (Dbl F)) (x : F) (h : Rounded._scalarMulti rnd n vec vec = .ok (fin x))
    (hx : 0 ≤ x) : Rounded._vectorNorm rnd sqrt n vec = .ok (fin (sqrt x)) := by
  simp [Rounded._vectorNorm, h, Dbl.sqrt, not_lt.2 hx, bind, Except.bind, pure, Except.pure]

theorem Rounded_getMovieScore_of (rnd : Dbl F → Dbl F) (sqrt : F → F) (n : Nat)
    (prefVec featVec : List (Dbl F)) (s n1 n2 : Dbl F)
    (hs : Rounded._scalarMulti rnd n prefVec featVec = .ok s)
    (h1 : Rounded._vectorNorm rnd sqrt n prefVec = .ok n1)
    (h2 : Rounded._vectorNorm rnd sqrt n featVec = .ok n2) :
    Rounded._getMovieScore rnd sqrt n prefVec featVec = .ok (rnd (s / rnd (n1 * n2))) := by
  simp [Rounded._getMovieScore, hs, h1, h2, bind, Except.bind, pure, Except.pure]

/-- On `roundingState`, the first loop of `_getMaxK` for movie `T`, user `u` and `k = 1`
retains `A` with its similarity `s`, and the prediction is `(0 + s * 5) / (0 + s)`, each
operation rounded. -/
theorem rounding_predict_of (rnd : Dbl F → Dbl F) (sqrt : F → F) (s : Dbl F)
    (hs : Rounded._getMovieScore rnd sqrt 2 [fin 1, fin 4] [fin 1, fin 0] = .ok s) :
    Rounded._getMaxK_select rnd sqrt (roundingState F) "T" "u" 1 = .ok [("A", s)] ∧
      Rounded.predictMovieScoreForUser rnd sqrt (roundingState F) "T" "u" 1 =
        .ok (rnd (rnd (fin 0 + rnd (s * fin 5)) / rnd (fin 0 + s))) := by
  have hsel : Rounded._getMaxK_select rnd sqrt (roundingState F) "T" "u" 1 =
      .ok [("A", s)] := by
    simp [Rounded._getMaxK_select, Rounded._getMaxK_step, roundingState, UMap.atKey,
      UMap.find, ne_fin_fin, hs, Queue.push, bind, Except.bind, pure, Except.pure]
  have hu : (roundingState F).users.find "u" = some [("A", fin 5), ("T", fin 0)] := rfl
  have hm : (roundingState F).movies.find "T" = some [fin 1, fin 0] := rfl
  refine ⟨hsel, ?_⟩
  simp only [Rounded.predictMovieScoreForUser, hu, hm, Rounded._getMaxK, hsel, bind,
    Except.bind, Rounded._getMaxK_sums, List.foldlM_cons, List.foldlM_nil, atKey_of_find hu]
  simp [UMap.atKey, UMap.find, pure, Except.pure]

end RoundedEngine

section RoundingFacts

/-! ## Values of the binary64 operations

The values of `sqrt64` and `round64` on the exact results that occur in the examples below,
each obtained from `sqrt64_eq` or `round64_eq`. -/

open Dbl (fin pinf ninf nan)

theorem sqrt64_fact0 : sqrt64 17 = 4642204239785223 / 1125899906842624 := by
  rw [sqrt64_eq 17 2 4642204239785223 (by norm_num) (by norm_num) (by norm_num) (by norm_num)
    (by norm_num)]
  norm_num

theorem sqrt64_fact1 : sqrt64 1 = 1 := by
  rw [sqrt64_eq 1 0 4503599627370496 (by norm_num) (by norm_num) (by norm_num) (by norm_num)
    (by norm_num)]
  norm_num

theorem sqrt64_fact2 : sqrt64 4 = 2 := by
  rw [sqrt64_eq 4 1 4503599627370496 (by norm_num) (by norm_num) (by norm_num) (by norm_num)
    (by norm_num)]
  norm_num

theorem round64_fact5 :
    round64 1 =
      fin 1 := by
  rw [round64_eq 1 0
    4503599627370496 (by norm_num [abs_of_pos, abs_of_neg])
    (by norm_num [abs_of_pos, abs_of_neg]) (by norm_num) (by norm_num)
    (roundEven_eq _ _ (by norm_num [abs_lt]))
    (by norm_num [abs_of_pos, abs_of_neg])]
  norm_num

theorem round64_fact6 :
    round64 16 =
      fin 16 := by
  rw [round64_eq 16 4
    4503599627370496 (by norm_num [abs_of_pos, abs_of_neg])
    (by norm_num [abs_of_pos, abs_of_neg]) (by norm_num) (by norm_num)
    (roundEven_eq _ _ (by norm_num [abs_lt]))
    (by norm_num [abs_of_pos, abs_of_neg])]
  norm_num

theorem round64_fact7 :
    round64 17 =
      fin 17 := by
  rw [round64_eq 17 4
    4785074604081152 (by norm_num [abs_of_pos, abs_of_neg])
    (by norm_num [abs_of_pos, abs_of_neg]) (by norm_num) (by norm_num)
    (roundEven_eq _ _ (by norm_num [abs_lt]))
    (by norm_num [abs_of_pos, abs_of_neg])]
  norm_num

theorem round64_fact8 :
    round64 (4642204239785223 / 1125899906842624) =
      fin (4642204239785223 / 1125899906842624) := by
  rw [round64_eq (4642204239785223 / 1125899906842624) 2
    4642204239785223 (by norm_num [abs_of_pos, abs_of_neg])
    (by norm_num [abs_of_pos, abs_of_neg]) (by norm_num) (by norm_num)
    (roundEven_eq _ _ (by norm_num [abs_lt]))
    (by norm_num [abs_of_pos, abs_of_neg])]
  norm_num

theorem round64_fact9 :
    round64 (1125899906842624 / 4642204239785223) =
      fin (2184566701075399 / 9007199254740992) := by
  rw [round64_eq (1125899906842624 / 4642204239785223) (-3)
    8738266804301596 (by norm_num [abs_of_pos, abs_of_neg])
    (by norm_num [abs_of_pos, abs_of_neg]) (by norm_num) (by norm_num)
    (roundEven_eq _ _ (by norm_num [abs_lt]))
    (by norm_num [abs_of_pos, abs_of_neg])]
  norm_num

theorem round64_fact10 :
    round64 (10922833505376995 / 9007199254740992) =
      fin (2730708376344249 / 2251799813685248) := by
  rw [round64_eq (10922833505376995 / 9007199254740992) 0
    5461416752688498 (by norm_num [abs_of_pos, abs_of_neg])
    (by norm_num [abs_of_pos, abs_of_neg]) (by norm_num) (by norm_num)
    (roundEven_tie_odd _ 5461416752688497 (by norm_num) (by norm_num))
    (by norm_num [abs_of_pos, abs_of_neg])]
  norm_num

theorem round64_fact11 :
    round64 (2730708376344249 / 2251799813685248) =
      fin (2730708376344249 / 2251799813685248) := by
  rw [round64_eq (2730708376344249 / 2251799813685248) 0
    5461416752688498 (by norm_num [abs_of_pos, abs_of_neg])
    (by norm_num [abs_of_pos, abs_of_neg]) (by norm_num) (by norm_num)
    (roundEven_eq _ _ (by norm_num [abs_lt]))
    (by norm_num [abs_of_pos, abs_of_neg])]
  norm_num

theorem round64_fact12 :
    round64 (2184566701075399 / 9007199254740992) =
      fin (2184566701075399 / 9007199254740992) := by
  rw [round64_eq (2184566701075399 / 9007199254740992) (-3)
    8738266804301596 (by norm_num [abs_of_pos, abs_of_neg])
    (by norm_num [abs_of_pos, abs_of_neg]) (by norm_num) (by norm_num)
    (roundEven_eq _ _ (by norm_num [abs_lt]))
    (by norm_num [abs_of_pos, abs_of_neg])]
  norm_num

theorem round64_fact13 :
    round64 (10922833505376996 / 2184566701075399) =
      fin (5629499534213121 / 1125899906842624) := by
  rw [round64_eq (10922833505376996 / 2184566701075399) 2
    5629499534213121 (by norm_num [abs_of_pos, abs_of_neg])
    (by norm_num [abs_of_pos, abs_of_neg]) (by norm_num) (by norm_num)
    (roundEven_eq _ _ (by norm_num [abs_lt]))
    (by norm_num [abs_of_pos, abs_of_neg])]
  norm_num

theorem round64_fact14 :
    round64 (-1) =
      fin (-1) := by
  rw [round64_eq (-1) 0
    (-4503599627370496) (by norm_num [abs_of_pos, abs_of_neg])
    (by norm_num [abs_of_pos, abs_of_neg]) (by norm_num) (by norm_num)
    (roundEven_eq _ _ (by norm_num [abs_lt]))
    (by norm_num [abs_of_pos, abs_of_neg])]
  norm_num

theorem round64_fact15 :
    round64 2 =
      fin 2 := by
  rw [round64_eq 2 1
    4503599627370496 (by norm_num [abs_of_pos, abs_of_neg])
    (by norm_num [abs_of_pos, abs_of_neg]) (by norm_num) (by norm_num)
    (roundEven_eq _ _ (by norm_num [abs_lt]))
    (by norm_num [abs_of_pos, abs_of_neg])]
  norm_num

theorem round64_fact16 :
    round64 3 =
      fin 3 := by
  rw [round64_eq 3 1
    6755399441055744 (by norm_num [abs_of_pos, abs_of_neg])
    (by norm_num [abs_of_pos, abs_of_neg]) (by norm_num) (by norm_num)
    (roundEven_eq _ _ (by norm_num [abs_lt]))
    (by norm_num [abs_of_pos, abs_of_neg])]
  norm_num

theorem round64_fact17 :
    round64 4 =
      fin 4 := by
  rw [round64_eq 4 2
    4503599627370496 (by norm_num [abs_of_pos, abs_of_neg])
    (by norm_num [abs_of_pos, abs_of_neg]) (by norm_num) (by norm_num)
    (roundEven_eq _ _ (by norm_num [abs_lt]))
    (by norm_num [abs_of_pos, abs_of_neg])]
  norm_num

theorem round64_fact18 :
    round64 (-(1 / 2)) =
      fin (-(1 / 2)) := by
  rw [round64_eq (-(1 / 2)) (-1)
    (-4503599627370496) (by norm_num [abs_of_pos, abs_of_neg])
    (by norm_num [abs_of_pos, abs_of_neg]) (by norm_num) (by norm_num)
    (roundEven_eq _ _ (by norm_num [abs_lt]))
    (by norm_num [abs_of_pos, abs_of_neg])]
  norm_num

theorem round64_fact19 :
    round64 (-(3 / 2)) =
      fin (-(3 / 2)) := by
  rw [round64_eq (-(3 / 2)) 0
    (-6755399441055744) (by norm_num [abs_of_pos, abs_of_neg])
    (by norm_num [abs_of_pos, abs_of_neg]) (by norm_num) (by norm_num)
    (roundEven_eq _ _ (by norm_num [abs_lt]))
    (by norm_num [abs_of_pos, abs_of_neg])]
  norm_num

theorem round64_fact20 :
    round64 (1 / 2) =
      fin (1 / 2) := by
  rw [round64_eq (1 / 2) (-1)
    4503599627370496 (by norm_num [abs_of_pos, abs_of_neg])
    (by norm_num [abs_of_pos, abs_of_neg]) (by norm_num) (by norm_num)
    (roundEven_eq _ _ (by norm_num [abs_lt]))
    (by norm_num [abs_of_pos, abs_of_neg])]
  norm_num

end RoundingFacts

section RoundingExamples

open Dbl (fin pinf ninf nan)

theorem roundingState_loaded (F : Type) [LinearOrderedField F] : Loaded (roundingState F) :=
  ⟨exampleStod F, roundingLines,
    { roundingState F with users := [], moviesNames := [] }, rfl, rfl, rfl⟩

theorem rounding_dot_AT :
    Rounded._scalarMulti binary64 2 [fin 1, fin 4] [fin 1, fin 0] = .ok (fin 1) := by
  rw [Rounded_scalarMulti_two]
  norm_num [binary64_fin, fin_add_fin, fin_mul_fin, round64_fact5, round64_zero]

theorem rounding_dot_AA :
    Rounded._scalarMulti binary64 2 [fin 1, fin 4] [fin 1, fin 4] = .ok (fin 17) := by
  rw [Rounded_scalarMulti_two]
  norm_num [binary64_fin, fin_add_fin, fin_mul_fin, round64_fact5, round64_fact6, round64_fact7]

theorem rounding_dot_TT :
    Rounded._scalarMulti binary64 2 [fin 1, fin 0] [fin 1, fin 0] = .ok (fin 1) := by
  rw [Rounded_scalarMulti_two]
  norm_num [binary64_fin, fin_add_fin, fin_mul_fin, round64_fact5, round64_zero]

theorem rounding_score :
    Rounded._getMovieScore binary64 sqrt64 2 [fin 1, fin 4] [fin 1, fin 0] =
      .ok (fin (2184566701075399 / 9007199254740992)) := by
  rw [Rounded_getMovieScore_of binary64 sqrt64 2 _ _ _ _ _ rounding_dot_AT
    (Rounded_vectorNorm_of binary64 sqrt64 2 _ _ rounding_dot_AA (by norm_num))
    (Rounded_vectorNorm_of binary64 sqrt64 2 _ _ rounding_dot_TT (by norm_num))]
  norm_num [binary64_fin, fin_mul_fin, fin_div_fin, sqrt64_fact0, sqrt64_fact1, round64_fact8,
    round64_fact9]

/-- C20, the counterexample: in the loaded state `roundingState` user `u` has rated the
single movie `A`, with `5`.  In binary64 the similarity of `A = [1, 4]` to `T = [1, 0]` is
`s = 0.24253562503633297`, a positive number; the product `s * 5` is rounded upwards, and
`predictMovieScoreForUser` returns `(0 + s * 5) / (0 + s) = 5 + 2 ^ (-50)`, which is greater
than `5`, the only rating of `u`. -/
theorem predictMovieScoreForUser_above_rating :
    Loaded (roundingState ℚ) ∧
      (roundingState ℚ).users.find "u" = some [("A", fin 5), ("T", fin 0)] ∧
      "T" ∈ (roundingState ℚ).movies.keys ∧
      Rounded._getMaxK_select binary64 sqrt64 (roundingState ℚ) "T" "u" 1 =
        .ok [("A", fin (2184566701075399 / 9007199254740992))] ∧
      (0 : ℚ) < 2184566701075399 / 9007199254740992 ∧
      Rounded.predictMovieScoreForUser binary64 sqrt64 (roundingState ℚ) "T" "u" 1 =
        .ok (fin (5 + 1 / 2 ^ 50)) ∧
      (5 : ℚ) < 5 + 1 / 2 ^ 50 := by
  obtain ⟨hsel, hval⟩ := rounding_predict_of binary64 sqrt64 _ rounding_score
  refine ⟨roundingState_loaded ℚ, rfl, by simp [roundingState, UMap.keys], hsel, by norm_num,
    ?_, by norm_num⟩
  rw [hval]
  norm_num [binary64_fin, fin_add_fin, fin_mul_fin, fin_div_fin, round64_fact10, round64_fact11,
    round64_fact12, round64_fact13]

end RoundingExamples

section MinusOneExamples

variable {F : Type} [LinearOrderedField F]

open Dbl (fin pinf ninf nan)

theorem minusOneState_loaded (F : Type) [LinearOrderedField F] : Loaded (minusOneState F) :=
  ⟨minusOneStod F, minusOneLines,
    { minusOneState F with users := [], moviesNames := [] }, rfl, rfl, rfl⟩

/-- On `minusOneState`, when the similarities `a` of `A` and `b` of `B` to `C` are numbers
with `b < a`, the first loop of `_getMaxK` for `k = 2` retains `B` and `A`, and the
prediction is `((0 + b * 3) + a * 1) / ((0 + b) + a)`, each operation rounded. -/
theorem minusOne_predict_of (rnd : Dbl F → Dbl F) (sqrt : F → F) (a b : F)
    (hA : Rounded._getMovieScore rnd sqrt 4 [fin 1, fin 0, fin 0, fin 0]
      [fin 1, fin 0, fin 0, fin 0] = .ok (fin a))
    (hB : Rounded._getMovieScore rnd sqrt 4 [fin (-1), fin 1, fin 1, fin 1]
      [fin 1, fin 0, fin 0, fin 0] = .ok (fin b))
    (hlt : b < a) :
    Rounded._getMaxK_select rnd sqrt (minusOneState F) "C" "u" 2 =
        .ok [("B", fin b), ("A", fin a)] ∧
      Rounded.predictMovieScoreForUser rnd sqrt (minusOneState F) "C" "u" 2 =
        .ok (rnd (rnd (rnd (fin 0 + rnd (fin b * fin 3)) + rnd (fin a * fin 1)) /
          rnd (rnd (fin 0 + fin b) + fin a))) := by
  have hsel : Rounded._getMaxK_select rnd sqrt (minusOneState F) "C" "u" 2 =
      .ok [("B", fin b), ("A", fin a)] := by
    simp [Rounded._getMaxK_select, Rounded._getMaxK_step, minusOneState, UMap.atKey,
      UMap.find, ne_fin_fin, hA, hB, Queue.push, cmp, gt_fin_fin, hlt, bind, Except.bind,
      pure, Except.pure]
  have hu : (minusOneState F).users.find "u" =
      some [("A", fin 1), ("B", fin 3), ("C", fin 0)] := rfl
  have hm : (minusOneState F).movies.find "C" = some [fin 1, fin 0, fin 0, fin 0] := rfl
  refine ⟨hsel, ?_⟩
  simp only [Rounded.predictMovieScoreForUser, hu, hm, Rounded._getMaxK, hsel, bind,
    Except.bind, Rounded._getMaxK_sums, List.foldlM_cons, List.foldlM_nil, atKey_of_find hu]
  simp [UMap.atKey, UMap.find, pure, Except.pure]

theorem minusOne_exact_score_A :
    Rounded._getMovieScore id Real.sqrt 4 [fin 1, fin 0, fin 0, fin 0]
      [fin 1, fin 0, fin 0, fin 0] = .ok (fin (1 : ℝ)) := by
  have hd : Rounded._scalarMulti id 4 [fin 1, fin 0, fin 0, fin 0]
      [fin 1, fin 0, fin 0, fin (0 : ℝ)] = .ok (fin 1) := by
    rw [Rounded_scalarMulti_four]
    norm_num [fin_add_fin, fin_mul_fin]
  rw [Rounded_getMovieScore_of id Real.sqrt 4 _ _ _ _ _ hd
    (Rounded_vectorNorm_of id Real.sqrt 4 _ _ hd (by norm_num))
    (Rounded_vectorNorm_of id Real.sqrt 4 _ _ hd (by norm_num))]
  norm_num [fin_mul_fin, fin_div_fin]

theorem minusOne_exact_score_B :
    Rounded._getMovieScore id Real.sqrt 4 [fin (-1), fin 1, fin 1, fin 1]
      [fin 1, fin 0, fin 0, fin 0] = .ok (fin (-1 / 2 : ℝ)) := by
  have hd : Rounded._scalarMulti id 4 [fin (-1), fin 1, fin 1, fin 1]
      [fin 1, fin 0, fin 0, fin (0 : ℝ)] = .ok (fin (-1)) := by
    rw [Rounded_scalarMulti_four]
    norm_num [fin_add_fin, fin_mul_fin]
  have hb : Rounded._scalarMulti id 4 [fin (-1), fin 1, fin 1, fin 1]
      [fin (-1), fin 1, fin 1, fin (1 : ℝ)] = .ok (fin 4) := by
    rw [Rounded_scalarMulti_four]
    norm_num [fin_add_fin, fin_mul_fin]
  have hc : Rounded._scalarMulti id 4 [fin 1, fin 0, fin 0, fin 0]
      [fin 1, fin 0, fin 0, fin (0 : ℝ)] = .ok (fin 1) := by
    rw [Rounded_scalarMulti_four]
    norm_num [fin_add_fin, fin_mul_fin]
  rw [Rounded_getMovieScore_of id Real.sqrt 4 _ _ _ _ _ hd
    (Rounded_vectorNorm_of id Real.sqrt 4 _ _ hb (by norm_num))
    (Rounded_vectorNorm_of id Real.sqrt 4 _ _ hc (by norm_num))]
  norm_num [fin_mul_fin, fin_div_fin, real_sqrt_four]

theorem minusOne_dot_CC :
    Rounded._scalarMulti binary64 4 [fin 1, fin 0, fin 0, fin 0]
      [fin 1, fin 0, fin 0, fin 0] = .ok (fin 1) := by
  rw [Rounded_scalarMulti_four]
  norm_num [binary64_fin, fin_add_fin, fin_mul_fin, round64_fact5, round64_zero]

theorem minusOne_dot_BC :
    Rounded._scalarMulti binary64 4 [fin (-1), fin 1, fin 1, fin 1]
      [fin 1, fin 0, fin 0, fin 0] = .ok (fin (-1)) := by
  rw [Rounded_scalarMulti_four]
  norm_num [binary64_fin, fin_add_fin, fin_mul_fin, round64_fact14, round64_zero]

theorem minusOne_dot_BB :
    Rounded._scalarMulti binary64 4 [fin (-1), fin 1, fin 1, fin 1]
      [fin (-1), fin 1, fin 1, fin 1] = .ok (fin 4) := by
  rw [Rounded_scalarMulti_four]
  norm_num [binary64_fin, fin_add_fin, fin_mul_fin, round64_fact5, round64_fact15, round64_fact16,
    round64_fact17]

theorem minusOne_score_A :
    Rounded._getMovieScore binary64 sqrt64 4 [fin 1, fin 0, fin 0, fin 0]
      [fin 1, fin 0, fin 0, fin 0] = .ok (fin 1) := by
  rw [Rounded_getMovieScore_of binary64 sqrt64 4 _ _ _ _ _ minusOne_dot_CC
    (Rounded_vectorNorm_of binary64 sqrt64 4 _ _ minusOne_dot_CC (by norm_num))
    (Rounded_vectorNorm_of binary64 sqrt64 4 _ _ minusOne_dot_CC (by norm_num))]
  norm_num [binary64_fin, fin_mul_fin, fin_div_fin, sqrt64_fact1, round64_fact5]

theorem minusOne_score_B :
    Rounded._getMovieScore binary64 sqrt64 4 [fin (-1), fin 1, fin 1, fin 1]
      [fin 1, fin 0, fin 0, fin 0] = .ok (fin (-1 / 2)) := by
  rw [Rounded_getMovieScore_of binary64 sqrt64 4 _ _ _ _ _ minusOne_dot_BC
    (Rounded_vectorNorm_of binary64 sqrt64 4 _ _ minusOne_dot_BB (by norm_num))
    (Rounded_vectorNorm_of binary64 sqrt64 4 _ _ minusOne_dot_CC (by norm_num))]
  norm_num [binary64_fin, fin_mul_fin, fin_div_fin, sqrt64_fact2, sqrt64_fact1, round64_fact15,
    round64_fact18]

/-- C12, the counterexample: in the loaded state `minusOneState` the user `u` and the movie
`C` exist, the similarities of the rated movies `A` and `B` to `C` are `1` and `-1/2`, and the
prediction for `k = 2` is `((-1/2) * 3 + 1 * 1) / ((-1/2) + 1) = -1`, the value that
`predictMovieScoreForUser` returns for the unknown user `nobody`.  This holds over exact
arithmetic and in binary64, where every intermediate value is a double. -/
theorem predictMovieScoreForUser_minus_one :
    Loaded (minusOneState ℝ) ∧ Loaded (minusOneState ℚ) ∧
      "u" ∈ (minusOneState ℚ).users.keys ∧ "C" ∈ (minusOneState ℚ).movies.keys ∧
      predictMovieScoreForUser Real.sqrt (minusOneState ℝ) "C" "u" 2 = .ok (fin (-1)) ∧
      predictMovieScoreForUser Real.sqrt (minusOneState ℝ) "C" "nobody" 2 =
        .ok (fin (-1)) ∧
      Rounded._getMaxK_select binary64 sqrt64 (minusOneState ℚ) "C" "u" 2 =
        .ok [("B", fin (-1 / 2)), ("A", fin 1)] ∧
      Rounded.predictMovieScoreForUser binary64 sqrt64 (minusOneState ℚ) "C" "u" 2 =
        .ok (fin (-1)) ∧
      Rounded.predictMovieScoreForUser binary64 sqrt64 (minusOneState ℚ) "C" "nobody" 2 =
        .ok (fin (-1)) := by
  obtain ⟨_, hexact⟩ := minusOne_predict_of id Real.sqrt 1 (-1 / 2) minusOne_exact_score_A
    minusOne_exact_score_B (by norm_num)
  obtain ⟨hsel, hval⟩ := minusOne_predict_of binary64 sqrt64 1 (-1 / 2) minusOne_score_A
    minusOne_score_B (by norm_num)
  have hn : ∀ (G : Type) [LinearOrderedField G],
      (minusOneState G).users.find "nobody" = none := fun _ _ => rfl
  refine ⟨minusOneState_loaded ℝ, minusOneState_loaded ℚ, by simp [minusOneState, UMap.keys],
    by simp [minusOneState, UMap.keys], ?_, ?_, hsel, ?_, ?_⟩
  · rw [← Rounded_predict_exact, hexact]
    norm_num [fin_add_fin, fin_mul_fin, fin_div_fin]
  · simp [predictMovieScoreForUser, hn ℝ, BAD_EXIT, pure, Except.pure]
  · rw [hval]
    norm_num [binary64_fin, fin_add_fin, fin_mul_fin, fin_div_fin, round64_fact19, round64_fact5,
      round64_fact18, round64_fact20, round64_fact14]
  · simp [Rounded.predictMovieScoreForUser, hn ℚ, BAD_EXIT, pure, Except.pure]

end MinusOneExamples

section SameRatingExamples

variable {F : Type} [LinearOrderedField F]

open Dbl (fin pinf ninf nan)

end SameRatingExamples

section CollinearExamples

variable {F : Type} [LinearOrderedField F]

open Dbl (fin pinf ninf nan)

end CollinearExamples

end RecommenderSystem
